import Mathlib

/-!
# MatrixMultiplication: a shallow embedding of the kernels and the matrix container

Sources embedded here:
* `src/matrixMultiplication/matrix/Matrix.hpp`  (`Matrix`, `transpose`, `operator==`)
* `src/matrixMultiplication/matrix/MatrixMul.cpp` (the tile kernels)
* `src/matrixMultiplication/matrix/cmatrix.c` (the fixed 1000x1000 blocked driver)

Modelling conventions.
* A `double` is an exact rational number (`ℚ`); NaN, infinities and rounding are not modelled.
* `std::size_t` and `int` loop counters are natural numbers: every loop below counts upwards
  from zero to a bound that is far below the wrap-around point of the machine type for any
  buffer that fits in memory.
* A raw `double*` argument is a buffer `Buf = ℕ → ℚ` addressed by the element offset from the
  pointer; pointer variables inside a kernel (`r`, `a`, `b`, ...) are offsets into the buffer
  they were derived from.  The result buffer and the two operand buffers are separate values,
  i.e. the result storage does not overlap the operand storage.
* `_mm_prefetch` has no effect on the values in memory and is omitted.
-/

namespace MatrixMultiplication

/-! ## Memory and loops -/

/-- Buffer of doubles addressed by element offset from its base pointer. -/
abbrev Buf := ℕ → ℚ

/-- The assignment `m[p] = v`. -/
def store (m : Buf) (p : ℕ) (v : ℚ) : Buf := fun q => if q = p then v else m q

/-- The counted loop `for (i = i0; <n more iterations>; ++i) s = body i s`; with `i0 = 0` this is
`for (i = 0; i < n; ++i)`. -/
def forLoop {σ : Type} (body : ℕ → σ → σ) : ℕ → ℕ → σ → σ
  | 0, _, s => s
  | n + 1, i, s => forLoop body n (i + 1) (body i s)

/-- The strided loop `for (i = i0; i < bound; i += step) s = body i s`.  A zero stride would
never terminate in the source; every stride used below is a positive literal. -/
def forLoopStep {σ : Type} (step : ℕ) (body : ℕ → σ → σ) (bound : ℕ) (i : ℕ) (s : σ) : σ :=
  if i < bound ∧ 0 < step then forLoopStep step body bound (i + step) (body i s) else s
termination_by bound - i
decreasing_by omega

/-! ## Vector intrinsics (`<immintrin.h>`, `<emmintrin.h>`)

A 128-bit register holds two doubles, a 256-bit register four; lane 0 is the lowest address. -/

/-- Register type `__m128d`. -/
abbrev M128d := ℚ × ℚ

/-- Register type `__m256d`. -/
abbrev M256d := ℚ × ℚ × ℚ × ℚ

/-- Intrinsic `_mm_load_pd(&m[p])`. -/
def mm_load_pd (m : Buf) (p : ℕ) : M128d := (m p, m (p + 1))

/-- Intrinsic `_mm_load_sd(&m[p])`: the low lane is loaded, the high lane is zero. -/
def mm_load_sd (m : Buf) (p : ℕ) : M128d := (m p, 0)

/-- Intrinsic `_mm_unpacklo_pd(x, y)`: the low lanes of both arguments. -/
def mm_unpacklo_pd (x y : M128d) : M128d := (x.1, y.1)

/-- Intrinsic `_mm_add_pd(x, y)`. -/
def mm_add_pd (x y : M128d) : M128d := (x.1 + y.1, x.2 + y.2)

/-- Intrinsic `_mm_mul_pd(x, y)`. -/
def mm_mul_pd (x y : M128d) : M128d := (x.1 * y.1, x.2 * y.2)

/-- Intrinsic `_mm_fmadd_pd(x, y, z) = x * y + z` (exact arithmetic: multiply, then add). -/
def mm_fmadd_pd (x y z : M128d) : M128d := (x.1 * y.1 + z.1, x.2 * y.2 + z.2)

/-- Intrinsic `_mm_store_pd(&m[p], v)`. -/
def mm_store_pd (m : Buf) (p : ℕ) (v : M128d) : Buf := store (store m p v.1) (p + 1) v.2

/-- Intrinsic `_mm256_setzero_pd()`. -/
def mm256_setzero_pd : M256d := (0, 0, 0, 0)

/-- Intrinsic `_mm256_loadu_pd(&m[p])`. -/
def mm256_loadu_pd (m : Buf) (p : ℕ) : M256d := (m p, m (p + 1), m (p + 2), m (p + 3))

/-- Intrinsic `_mm256_broadcast_sd(&m[p])`. -/
def mm256_broadcast_sd (m : Buf) (p : ℕ) : M256d := (m p, m p, m p, m p)

/-- Intrinsic `_mm256_add_pd(x, y)`. -/
def mm256_add_pd (x y : M256d) : M256d :=
  (x.1 + y.1, x.2.1 + y.2.1, x.2.2.1 + y.2.2.1, x.2.2.2 + y.2.2.2)

/-- Intrinsic `_mm256_mul_pd(x, y)`. -/
def mm256_mul_pd (x y : M256d) : M256d :=
  (x.1 * y.1, x.2.1 * y.2.1, x.2.2.1 * y.2.2.1, x.2.2.2 * y.2.2.2)

/-- Intrinsic `_mm256_storeu_pd(&m[p], v)`. -/
def mm256_storeu_pd (m : Buf) (p : ℕ) (v : M256d) : Buf :=
  store (store (store (store m p v.1) (p + 1) v.2.1) (p + 2) v.2.2.1) (p + 3) v.2.2.2

/-! ## `Matrix.hpp`: constants -/

/-- Constant `constexpr std::size_t N = 256;` of `Matrix.hpp`: the row stride of the kernels. -/
def N : ℕ := 256

/-- Modelled from the spec: the compiler constant `__DBL_EPSILON__` used by `operator==` is not
defined in the sources; the spec calls it "machine epsilon (≈2.22e-16)", which for the binary64
`double` is `2^-52`. -/
def DBL_EPSILON : ℚ := 1 / 2 ^ 52

/-! ## `Matrix.hpp`: the matrix container -/

/-- Class `Matrix<T>`: the private fields `_row_cnt`, `_col_cnt` and the flat buffer `_matrix`
(an `aligned_vector<double>`; alignment is not modelled). -/
structure Matrix where
  row_cnt : ℕ
  col_cnt : ℕ
  matrix : Array ℚ
deriving DecidableEq

namespace Matrix

/-- Constructor `Matrix(row_cnt, col_cnt)`: a zero-filled buffer of `row_cnt * col_cnt` cells. -/
def new (row_cnt col_cnt : ℕ) : Matrix :=
  { row_cnt := row_cnt, col_cnt := col_cnt, matrix := Array.mkArray (row_cnt * col_cnt) 0 }

/-- Constructor `Matrix()`. -/
def newDefault : Matrix :=
  { row_cnt := N, col_cnt := N, matrix := Array.mkArray (N * N) 0 }

/-- Read accessor `operator[](idx) const`.  The access is unchecked in the source; an index
outside the buffer (undefined behaviour there) reads as `0` here. -/
def get (m : Matrix) (idx : ℕ) : ℚ := m.matrix.getD idx 0

/-- Write through `operator[](idx)`, i.e. `m[idx] = v`.  The access is unchecked in the source;
an index outside the buffer (undefined behaviour there) leaves the matrix unchanged here. -/
def set (m : Matrix) (idx : ℕ) (v : ℚ) : Matrix := { m with matrix := m.matrix.setD idx v }

/-- Accessor `size()`. -/
def size (m : Matrix) : ℕ := m.col_cnt * m.row_cnt

/-- Accessor `col()`. -/
def col (m : Matrix) : ℕ := m.col_cnt

/-- Accessor `row()`. -/
def row (m : Matrix) : ℕ := m.row_cnt

/-- Class invariant of `Matrix`: the buffer holds exactly `row_cnt * col_cnt` cells.  Both
constructors establish it and no member function changes the buffer length. -/
def WF (m : Matrix) : Prop := m.matrix.size = m.row_cnt * m.col_cnt

instance (m : Matrix) : Decidable m.WF := by unfold WF; infer_instance

end Matrix

/-- Function `transpose` of `Matrix.hpp` (lines 100-120). -/
def transpose (m : Matrix) : Matrix :=
  let col_cnt := m.col
  let row_cnt := m.row
  let transposed := Matrix.new col_cnt row_cnt
  forLoop (fun i (transposed : Matrix) =>
      forLoop (fun j (transposed : Matrix) =>
          transposed.set (i * col_cnt + j) (m.get (j * row_cnt + i)))
        col_cnt 0 transposed)
    row_cnt 0 transposed

/-- The comparison loop of `operator==`,
`for (idx = idx0; <n more iterations>; ++idx) if (std::abs(s1[idx] - s2[idx]) > eps) return false;`
followed by `return true;`.  With `idx0 = 0` this is `for (idx = 0; idx < n; ++idx)`. -/
def operator_eq_loop (s1 s2 : Matrix) : ℕ → ℕ → Bool
  | 0, _ => true
  | n + 1, idx =>
    if |s1.get idx - s2.get idx| > DBL_EPSILON then false
    else operator_eq_loop s1 s2 n (idx + 1)

/-- Function `operator==` on matrices, `Matrix.hpp` (lines 136-157). -/
def operator_eq (s1 s2 : Matrix) : Bool :=
  let row_cnt := s1.row
  let col_cnt := s1.col
  if col_cnt ≠ s2.col then false
  else if row_cnt ≠ s2.row then false
  else
    let N := row_cnt * col_cnt
    operator_eq_loop s1 s2 N 0

/-- The 2x3 matrix `[[0, 1, 2], [3, 4, 5]]` in the row-major layout of `operator<<`. -/
def matrix2x3 : Matrix := { row_cnt := 2, col_cnt := 3, matrix := #[0, 1, 2, 3, 4, 5] }

/-- Function `initAlignedVector` of `Matrix.hpp` (lines 21-36), with the generator `fun` named
`gen`.  `matrix.resize(row_size * col_size)` on the empty vector gives that many zeros.  The
store `matrix[col * col_size + row] = fun(row, col)` is unchecked in the source; a store outside
the buffer is undefined behaviour there and makes the result `none` here. -/
def initAlignedVector (row_size col_size : ℕ) (gen : ℕ → ℕ → ℚ) : Option (Array ℚ) :=
  let matrix : Array ℚ := Array.mkArray (row_size * col_size) 0
  forLoop (fun col (matrix : Option (Array ℚ)) =>
      forLoop (fun row (matrix : Option (Array ℚ)) =>
          matrix.bind (fun v =>
            if col * col_size + row < v.size then
              some (v.setD (col * col_size + row) (gen row col))
            else none))
        row_size 0 matrix)
    col_size 0 (some matrix)

/-! ## `MatrixMul.cpp`: the tile kernels -/

/-- Kernel `kernelMulMatrix_BL_NV` of `MatrixMul.cpp` (lines 23-35).  The loop state of the
`i2` loop is `(result buffer, r, a)`, that of the `k2` loop is `(result buffer, b)`. -/
def kernelMulMatrix_BL_NV (m_res m_mul1 m_mul2 : Buf) (block_size : ℕ) : Buf :=
  (forLoop (fun _i2 (s : Buf × ℕ × ℕ) =>
      let res := s.1
      let r := s.2.1
      let a := s.2.2
      let res1 := (forLoop (fun k2 (t : Buf × ℕ) =>
          let b := t.2
          (forLoop (fun j2 (m : Buf) =>
              store m (r + j2) (m (r + j2) + m_mul1 (a + k2) * m_mul2 (b + j2)))
            block_size 0 t.1, b + N))
        block_size 0 (res, 0)).1
      (res1, r + N, a + N))
    block_size 0 (m_res, 0, 0)).1

/-- Kernel `kernelMulMatrix_TP_BL_NV` of `MatrixMul.cpp` (lines 37-57).  The parameters `r` and
`a` are advanced by the outer loop, so the state of the `i` loop is `(result buffer, r, a)`;
the state of the `j` loop is `(result buffer, b)`; the `k` loop accumulates the scalar `t`. -/
def kernelMulMatrix_TP_BL_NV (r_buf a_buf m_mul2 : Buf) (block_size : ℕ) : Buf :=
  (forLoop (fun _i (s : Buf × ℕ × ℕ) =>
      let res := s.1
      let r := s.2.1
      let a := s.2.2
      let res1 := (forLoop (fun j (u : Buf × ℕ) =>
          let b := u.2
          let t := forLoop (fun k (t : ℚ) => t + a_buf (a + k) * m_mul2 (b + k)) block_size 0 0
          (store u.1 (r + j) (u.1 (r + j) + t), b + N))
        block_size 0 (res, 0)).1
      (res1, r + N, a + N))
    block_size 0 (r_buf, 0, 0)).1

/-- Kernel `kernelMulMatrix_VT_BL_TP` of `MatrixMul.cpp` (lines 59-87).  The `k` loop advances by
four and accumulates the register `rk`; `arrK` is the register stored to a four-element array. -/
def kernelMulMatrix_VT_BL_TP (r_buf a_buf m_mul2 : Buf) (block_size : ℕ) : Buf :=
  (forLoop (fun _i (s : Buf × ℕ × ℕ) =>
      let res := s.1
      let r := s.2.1
      let a := s.2.2
      let res1 := (forLoop (fun j (u : Buf × ℕ) =>
          let b := u.2
          let rk := forLoopStep 4 (fun k (rk : M256d) =>
              let m1 := mm256_loadu_pd a_buf (a + k)
              let m2 := mm256_loadu_pd m_mul2 (b + k)
              mm256_add_pd rk (mm256_mul_pd m2 m1))
            block_size 0 mm256_setzero_pd
          let arrK := rk
          (store u.1 (r + j) (u.1 (r + j) + (arrK.1 + arrK.2.1 + arrK.2.2.1 + arrK.2.2.2)),
            b + N))
        block_size 0 (res, 0)).1
      (res1, r + N, a + N))
    block_size 0 (r_buf, 0, 0)).1

/-- Kernel `mulMatrix_128VL_BL` of `MatrixMul.cpp` (lines 89-124).  The state of the `i2` loop is
`(result buffer, rres, rmul1)`; the state of the `k2` loop is the four accumulator registers
`(r20, r21, r22, r23)` and the pointer `rmul2`. -/
def mulMatrix_128VL_BL (rres_buf rmul1_buf m_mul2 : Buf) (block_size : ℕ) : Buf :=
  (forLoop (fun _i2 (s : Buf × ℕ × ℕ) =>
      let res := s.1
      let rres := s.2.1
      let rmul1 := s.2.2
      let r20 := mm_load_pd res (rres + 0)
      let r21 := mm_load_pd res (rres + 2)
      let r22 := mm_load_pd res (rres + 4)
      let r23 := mm_load_pd res (rres + 6)
      let acc := (forLoop (fun k2 (u : (M128d × M128d × M128d × M128d) × ℕ) =>
          let rmul2 := u.2
          let m20 := mm_load_pd m_mul2 (rmul2 + 0)
          let m21 := mm_load_pd m_mul2 (rmul2 + 2)
          let m22 := mm_load_pd m_mul2 (rmul2 + 4)
          let m23 := mm_load_pd m_mul2 (rmul2 + 6)
          let m1d := mm_load_sd rmul1_buf (rmul1 + k2)
          let m1d := mm_unpacklo_pd m1d m1d
          ((mm_fmadd_pd m20 m1d u.1.1, mm_fmadd_pd m21 m1d u.1.2.1,
            mm_fmadd_pd m22 m1d u.1.2.2.1, mm_fmadd_pd m23 m1d u.1.2.2.2), rmul2 + N))
        block_size 0 ((r20, r21, r22, r23), 0)).1
      let res := mm_store_pd res (rres + 0) acc.1
      let res := mm_store_pd res (rres + 2) acc.2.1
      let res := mm_store_pd res (rres + 4) acc.2.2.1
      let res := mm_store_pd res (rres + 6) acc.2.2.2
      (res, rres + N, rmul1 + N))
    block_size 0 (rres_buf, 0, 0)).1

/-- Kernel `mulMatrix_256VL_BL` of `MatrixMul.cpp` (lines 126-158).  The state of the `i2` loop is
`(result buffer, rres, rmul1)`; the state of the `k2` loop is the two accumulator registers
`(r20, r22)` and the pointer `rmul2`. -/
def mulMatrix_256VL_BL (rres_buf rmul1_buf m_mul2 : Buf) (block_size : ℕ) : Buf :=
  (forLoop (fun _i2 (s : Buf × ℕ × ℕ) =>
      let res := s.1
      let rres := s.2.1
      let rmul1 := s.2.2
      let r20 := mm256_loadu_pd res (rres + 0)
      let r22 := mm256_loadu_pd res (rres + 4)
      let acc := (forLoop (fun k2 (u : (M256d × M256d) × ℕ) =>
          let rmul2 := u.2
          let m20 := mm256_loadu_pd m_mul2 (rmul2 + 0)
          let m22 := mm256_loadu_pd m_mul2 (rmul2 + 4)
          let m1d := mm256_broadcast_sd rmul1_buf (rmul1 + k2)
          ((mm256_add_pd u.1.1 (mm256_mul_pd m20 m1d),
            mm256_add_pd u.1.2 (mm256_mul_pd m22 m1d)), rmul2 + N))
        block_size 0 ((r20, r22), 0)).1
      let res := mm256_storeu_pd res (rres + 0) acc.1
      let res := mm256_storeu_pd res (rres + 4) acc.2
      (res, rres + N, rmul1 + N))
    block_size 0 (rres_buf, 0, 0)).1

/-! ## `cmatrix.c`: the fixed-size blocked driver -/

namespace cmatrix

/-- Macro `#define N 1000` of `cmatrix.c`. -/
def N : ℕ := 1000

/-- Macro `#define SM (64 / sizeof (double))` of `cmatrix.c`, with `sizeof (double) = 8`. -/
def SM : ℕ := 64 / 8

/-- The three static arrays `res`, `mul1`, `mul2` of `cmatrix.c`.  Each `double x[N][N]` is the
flat row-major buffer in which `x[i][j]` is the cell at offset `i * N + j`. -/
structure Globals where
  res : Buf
  mul1 : Buf
  mul2 : Buf

/-- Function `cinitMatrix` of `cmatrix.c` (lines 16-38); the call `srand(time(NULL))` does not
touch the arrays. -/
def cinitMatrix (g : Globals) : Globals :=
  let res := forLoop (fun i (m : Buf) =>
      forLoop (fun j (m : Buf) => store m (i * N + j) 0) N 0 m) N 0 g.res
  let mul1 := forLoop (fun i (m : Buf) =>
      forLoop (fun j (m : Buf) => store m (i * N + j) 2) N 0 m) N 0 g.mul1
  let mul2 := forLoop (fun i (m : Buf) =>
      forLoop (fun j (m : Buf) => store m (i * N + j) 4) N 0 m) N 0 g.mul2
  { res := res, mul1 := mul1, mul2 := mul2 }

/-- The body of the `k` loop of `cmultiplyMatrix` (`cmatrix.c`, lines 51-70): one 8x8x8 tile
with origin `(i, j, k)`.  The state of the `i2` loop is `(res, rres, rmul1)`, that of the `k2`
loop is `(res, rmul2)`; the operands `mul1`, `mul2` are only read. -/
def cmultiplyMatrix_tile (g : Globals) (i j k : ℕ) (res : Buf) : Buf :=
  let rres := i * N + j
  let rmul1 := i * N + k
  (forLoop (fun _i2 (s : Buf × ℕ × ℕ) =>
      let rres := s.2.1
      let rmul1 := s.2.2
      let res1 := (forLoop (fun k2 (u : Buf × ℕ) =>
          let rmul2 := u.2
          let m1d := mm_load_sd g.mul1 (rmul1 + k2)
          let m1d := mm_unpacklo_pd m1d m1d
          (forLoopStep 2 (fun j2 (res : Buf) =>
              let m2 := mm_load_pd g.mul2 (rmul2 + j2)
              let r2 := mm_load_pd res (rres + j2)
              mm_store_pd res (rres + j2) (mm_add_pd (mm_mul_pd m2 m1d) r2))
            SM 0 u.1, rmul2 + N))
        SM 0 (s.1, k * N + j)).1
      (res1, rres + N, rmul1 + N))
    SM 0 (res, rres, rmul1)).1

/-- Function `cmultiplyMatrix` of `cmatrix.c` (lines 41-73): the returned `int` and the arrays
after the call.  The three outer loops step `i`, `j`, `k` by `SM`; their body is
`cmultiplyMatrix_tile`. -/
def cmultiplyMatrix (g : Globals) : ℤ × Globals :=
  let res :=
    forLoopStep SM (fun i (res : Buf) =>
      forLoopStep SM (fun j (res : Buf) =>
        forLoopStep SM (fun k (res : Buf) => cmultiplyMatrix_tile g i j k res) N 0 res)
        N 0 res)
      N 0 g.res
  (0, { g with res := res })

end cmatrix

/-! ## `MatrixMul.cpp`: the parameterised kernels of class `Kernels` -/

namespace Kernels

/-- Member function `Kernels::kernelMulMatrix_BL_NV` of `MatrixMul.cpp` (lines 177-189).  The
data members `_block_size`, `_j_size`, `_k_size` are declared in a header that is not among the
sources; they are the first three parameters here.  The loop state of the `i2` loop is
`(result buffer, c, a)`, that of the `k2` loop is `(result buffer, b)`. -/
def kernelMulMatrix_BL_NV (block_size j_size k_size : ℕ) (m_res m_mul1 m_mul2 : Buf) : Buf :=
  (forLoop (fun _i2 (s : Buf × ℕ × ℕ) =>
      let res := s.1
      let c := s.2.1
      let a := s.2.2
      let res1 := (forLoop (fun k2 (t : Buf × ℕ) =>
          let b := t.2
          (forLoop (fun j2 (m : Buf) =>
              store m (c + j2) (m (c + j2) + m_mul1 (a + k2) * m_mul2 (b + j2)))
            block_size 0 t.1, b + j_size))
        block_size 0 (res, 0)).1
      (res1, c + j_size, a + k_size))
    block_size 0 (m_res, 0, 0)).1

end Kernels

/-! ## Pointers into a larger matrix -/

/-- The buffer seen through the pointer `m + off`: its cell `q` is the cell `off + q` of `m`. -/
def atOffset (m : Buf) (off : ℕ) : Buf := fun q => m (off + q)

/-- The buffer `m` after a callee that was handed the pointer `m + off` left the cells from that
pointer onwards as `r`: cell `p ≥ off` holds `r (p - off)`, the cells below `off` are as before. -/
def writeBack (m : Buf) (off : ℕ) (r : Buf) : Buf :=
  fun p => if off ≤ p then r (p - off) else m p

/-! ## The memory accesses of the scalar kernel -/

/-- One memory access of a kernel call: the pointer argument it goes through, whether it is a
load or a store, and the element offset from that pointer. -/
inductive Access where
  | readRes (p : ℕ)
  | writeRes (p : ℕ)
  | readMul1 (p : ℕ)
  | readMul2 (p : ℕ)
deriving DecidableEq

/-- Kernel `kernelMulMatrix_BL_NV` of `MatrixMul.cpp` (lines 23-35) together with the list of its
memory accesses: the statement `r[j2] += a[k2] * b[j2]` loads `a[k2]`, `b[j2]` and `r[j2]` and
stores `r[j2]`.  The loops and pointers are those of `kernelMulMatrix_BL_NV`. -/
def kernelMulMatrix_BL_NV_logged (m_res m_mul1 m_mul2 : Buf) (block_size : ℕ) :
    Buf × List Access :=
  (forLoop (fun _i2 (s : (Buf × List Access) × ℕ × ℕ) =>
      let r := s.2.1
      let a := s.2.2
      let res1 := (forLoop (fun k2 (t : (Buf × List Access) × ℕ) =>
          let b := t.2
          (forLoop (fun j2 (m : Buf × List Access) =>
              (store m.1 (r + j2) (m.1 (r + j2) + m_mul1 (a + k2) * m_mul2 (b + j2)),
                m.2 ++ [Access.readMul1 (a + k2), Access.readMul2 (b + j2),
                  Access.readRes (r + j2), Access.writeRes (r + j2)]))
            block_size 0 t.1, b + N))
        block_size 0 (s.1, 0)).1
      (res1, r + N, a + N))
    block_size 0 ((m_res, []), 0, 0)).1

/-- An access lies inside the `N x N` buffer it goes to, when the result pointer is
`C + offRes`, the first operand pointer `A + offMul1` and the second `B + offMul2`. -/
def Access.inBounds (offRes offMul1 offMul2 : ℕ) : Access → Prop
  | Access.readRes p => offRes + p < N * N
  | Access.writeRes p => offRes + p < N * N
  | Access.readMul1 p => offMul1 + p < N * N
  | Access.readMul2 p => offMul2 + p < N * N

/-! ## Loop lemmas -/

theorem forLoop_congr {σ : Type} (f g : ℕ → σ → σ) (n : ℕ) :
    ∀ (i : ℕ) (s : σ), (∀ j, i ≤ j → j < i + n → ∀ t, f j t = g j t) →
      forLoop f n i s = forLoop g n i s := by
  induction n with
  | zero => intro i s _; rfl
  | succ n ih =>
    intro i s h
    simp only [forLoop]
    rw [h i (le_refl i) (by omega)]
    exact ih (i + 1) (g i s) (fun j h1 h2 t => h j (by omega) (by omega) t)

/-- A loop whose body adds to every cell an amount that does not depend on the buffer adds the
sum of these amounts. -/
theorem forLoop_add (body : ℕ → Buf → Buf) (d : ℕ → ℕ → ℚ)
    (h : ∀ i s, body i s = fun p => s p + d i p) (n : ℕ) :
    ∀ (i0 : ℕ) (s : Buf),
      forLoop body n i0 s = fun p => s p + ∑ t ∈ Finset.range n, d (i0 + t) p := by
  induction n with
  | zero => intro i0 s; funext p; simp [forLoop]
  | succ n ih =>
    intro i0 s
    funext p
    simp only [forLoop]
    rw [ih (i0 + 1) (body i0 s), h i0 s, Finset.sum_range_succ']
    simp only [add_zero]
    have : ∀ t, i0 + 1 + t = i0 + (t + 1) := fun t => by omega
    simp only [this]
    ring

/-- A loop that carries one pointer advanced by a constant stride. -/
theorem forLoop_ptr {σ : Type} (g : ℕ → ℕ → σ → σ) (c : ℕ) (n : ℕ) :
    ∀ (i0 : ℕ) (s : σ) (p0 : ℕ),
      forLoop (fun i (t : σ × ℕ) => (g i t.2 t.1, t.2 + c)) n i0 (s, p0)
        = (forLoop (fun i s => g i (p0 + (i - i0) * c) s) n i0 s, p0 + n * c) := by
  induction n with
  | zero => intro i0 s p0; simp [forLoop]
  | succ n ih =>
    intro i0 s p0
    simp only [forLoop]
    rw [ih (i0 + 1) (g i0 p0 s) (p0 + c)]
    refine Prod.ext ?_ ?_
    · simp only [Nat.sub_self, Nat.zero_mul, Nat.add_zero]
      apply forLoop_congr
      intro j h1 _ t
      have : p0 + c + (j - (i0 + 1)) * c = p0 + (j - i0) * c := by
        obtain ⟨e, rfl⟩ : ∃ e, j = i0 + 1 + e := ⟨j - (i0 + 1), by omega⟩
        have h3 : i0 + 1 + e - (i0 + 1) = e := by omega
        have h4 : i0 + 1 + e - i0 = e + 1 := by omega
        rw [h3, h4]; ring
      rw [this]
    · show p0 + c + n * c = p0 + (n + 1) * c
      ring

/-- A loop that carries two pointers advanced by constant strides. -/
theorem forLoop_ptr2 {σ : Type} (g : ℕ → ℕ → ℕ → σ → σ) (c d : ℕ) (n : ℕ) :
    ∀ (i0 : ℕ) (s : σ) (p0 q0 : ℕ),
      forLoop (fun i (t : σ × ℕ × ℕ) => (g i t.2.1 t.2.2 t.1, t.2.1 + c, t.2.2 + d)) n i0
          (s, p0, q0)
        = (forLoop (fun i s => g i (p0 + (i - i0) * c) (q0 + (i - i0) * d) s) n i0 s,
            p0 + n * c, q0 + n * d) := by
  induction n with
  | zero => intro i0 s p0 q0; simp [forLoop]
  | succ n ih =>
    intro i0 s p0 q0
    simp only [forLoop]
    rw [ih (i0 + 1) (g i0 p0 q0 s) (p0 + c) (q0 + d)]
    refine Prod.ext ?_ (Prod.ext ?_ ?_)
    · simp only [Nat.sub_self, Nat.zero_mul, Nat.add_zero]
      apply forLoop_congr
      intro j h1 _ t
      obtain ⟨e, rfl⟩ : ∃ e, j = i0 + 1 + e := ⟨j - (i0 + 1), by omega⟩
      have h3 : i0 + 1 + e - (i0 + 1) = e := by omega
      have h4 : i0 + 1 + e - i0 = e + 1 := by omega
      have h5 : p0 + c + e * c = p0 + (e + 1) * c := by ring
      have h6 : q0 + d + e * d = q0 + (e + 1) * d := by ring
      rw [h3, h4, h5, h6]
    · show p0 + c + n * c = p0 + (n + 1) * c
      ring
    · show q0 + d + n * d = q0 + (n + 1) * d
      ring

theorem store_add_apply (m : Buf) (q : ℕ) (v : ℚ) :
    store m q (m q + v) = fun p => m p + (if p = q then v else 0) := by
  funext p
  unfold store
  split_ifs with h
  · rw [h]
  · simp

/-- The innermost scalar loop `for (j2 ...) r[j2] += x * b[j2]`. -/
theorem scalarRow_apply (x : ℚ) (m2 : Buf) (r b n : ℕ) (m : Buf) :
    forLoop (fun j2 (m : Buf) => store m (r + j2) (m (r + j2) + x * m2 (b + j2))) n 0 m
      = fun p => m p + ∑ j ∈ Finset.range n, if p = r + j then x * m2 (b + j) else 0 := by
  rw [forLoop_add _ (fun j p => if p = r + j then x * m2 (b + j) else 0)
    (fun j s => store_add_apply s (r + j) _) n 0 m]
  simp only [Nat.zero_add]

/-- Closed form of `kernelMulMatrix_BL_NV` for every block size: each cell receives the products
of all `(i, k, j)` whose target index `i * N + j` is that cell. -/
theorem kernelMulMatrix_BL_NV_apply (m_res m_mul1 m_mul2 : Buf) (block_size p : ℕ) :
    kernelMulMatrix_BL_NV m_res m_mul1 m_mul2 block_size p
      = m_res p + ∑ i ∈ Finset.range block_size, ∑ k ∈ Finset.range block_size,
          ∑ j ∈ Finset.range block_size,
            if p = i * N + j then m_mul1 (i * N + k) * m_mul2 (k * N + j) else 0 := by
  unfold kernelMulMatrix_BL_NV
  have h := forLoop_ptr2 (fun _i2 r a (res : Buf) =>
      (forLoop (fun k2 (t : Buf × ℕ) =>
          (forLoop (fun j2 (m : Buf) =>
              store m (r + j2) (m (r + j2) + m_mul1 (a + k2) * m_mul2 (t.2 + j2)))
            block_size 0 t.1, t.2 + N))
        block_size 0 (res, 0)).1) N N block_size 0 m_res 0 0
  simp only [] at h ⊢
  rw [h]
  have hk : ∀ (i : ℕ) (res : Buf),
      (forLoop (fun k2 (t : Buf × ℕ) =>
          (forLoop (fun j2 (m : Buf) =>
              store m (0 + (i - 0) * N + j2)
                (m (0 + (i - 0) * N + j2) + m_mul1 (0 + (i - 0) * N + k2) * m_mul2 (t.2 + j2)))
            block_size 0 t.1, t.2 + N))
        block_size 0 (res, 0)).1
      = fun p => res p + ∑ k ∈ Finset.range block_size, ∑ j ∈ Finset.range block_size,
          if p = i * N + j then m_mul1 (i * N + k) * m_mul2 (k * N + j) else 0 := by
    intro i res
    have h2 := forLoop_ptr (fun k2 b (m : Buf) =>
        forLoop (fun j2 (m : Buf) =>
              store m (0 + (i - 0) * N + j2)
                (m (0 + (i - 0) * N + j2) + m_mul1 (0 + (i - 0) * N + k2) * m_mul2 (b + j2)))
            block_size 0 m) N block_size 0 res 0
    simp only [] at h2 ⊢
    rw [h2]
    simp only [scalarRow_apply, Nat.zero_add, Nat.sub_zero]
    rw [forLoop_add _ (fun k p => ∑ j ∈ Finset.range block_size,
      if p = i * N + j then m_mul1 (i * N + k) * m_mul2 (k * N + j) else 0) (fun _ _ => rfl)]
    simp only [Nat.zero_add]
  simp only [hk]
  rw [forLoop_add _ (fun i p => ∑ k ∈ Finset.range block_size, ∑ j ∈ Finset.range block_size,
      if p = i * N + j then m_mul1 (i * N + k) * m_mul2 (k * N + j) else 0) (fun _ _ => rfl)]
  simp only [Nat.zero_add]

/-- A scalar accumulation loop `for (k ...) t += d k`. -/
theorem forLoop_sum (d : ℕ → ℚ) (n : ℕ) :
    ∀ (i0 : ℕ) (t0 : ℚ),
      forLoop (fun k (t : ℚ) => t + d k) n i0 t0 = t0 + ∑ t ∈ Finset.range n, d (i0 + t) := by
  induction n with
  | zero => intro i0 t0; simp [forLoop]
  | succ n ih =>
    intro i0 t0
    simp only [forLoop]
    rw [ih (i0 + 1) (t0 + d i0), Finset.sum_range_succ']
    simp only [add_zero]
    have : ∀ t, i0 + 1 + t = i0 + (t + 1) := fun t => by omega
    simp only [this]
    ring

/-- Closed form of `kernelMulMatrix_TP_BL_NV` for every block size. -/
theorem kernelMulMatrix_TP_BL_NV_apply (r_buf a_buf m_mul2 : Buf) (block_size p : ℕ) :
    kernelMulMatrix_TP_BL_NV r_buf a_buf m_mul2 block_size p
      = r_buf p + ∑ i ∈ Finset.range block_size, ∑ j ∈ Finset.range block_size,
          if p = i * N + j then
            ∑ k ∈ Finset.range block_size, a_buf (i * N + k) * m_mul2 (j * N + k)
          else 0 := by
  unfold kernelMulMatrix_TP_BL_NV
  have h := forLoop_ptr2 (fun _i r a (res : Buf) =>
      (forLoop (fun j (u : Buf × ℕ) =>
          (store u.1 (r + j) (u.1 (r + j)
              + forLoop (fun k (t : ℚ) => t + a_buf (a + k) * m_mul2 (u.2 + k)) block_size 0 0),
            u.2 + N))
        block_size 0 (res, 0)).1) N N block_size 0 r_buf 0 0
  simp only [] at h ⊢
  rw [h]
  have hj : ∀ (i : ℕ) (res : Buf),
      (forLoop (fun j (u : Buf × ℕ) =>
          (store u.1 (0 + (i - 0) * N + j) (u.1 (0 + (i - 0) * N + j)
              + forLoop (fun k (t : ℚ) => t + a_buf (0 + (i - 0) * N + k) * m_mul2 (u.2 + k))
                  block_size 0 0),
            u.2 + N))
        block_size 0 (res, 0)).1
      = fun p => res p + ∑ j ∈ Finset.range block_size,
          if p = i * N + j then
            ∑ k ∈ Finset.range block_size, a_buf (i * N + k) * m_mul2 (j * N + k)
          else 0 := by
    intro i res
    have h2 := forLoop_ptr (fun j b (m : Buf) =>
        store m (0 + (i - 0) * N + j) (m (0 + (i - 0) * N + j)
          + forLoop (fun k (t : ℚ) => t + a_buf (0 + (i - 0) * N + k) * m_mul2 (b + k))
              block_size 0 0)) N block_size 0 res 0
    simp only [] at h2 ⊢
    rw [h2]
    simp only [forLoop_sum, store_add_apply, Nat.zero_add, Nat.sub_zero, zero_add]
    rw [forLoop_add _ (fun j p => if p = i * N + j then
            ∑ k ∈ Finset.range block_size, a_buf (i * N + k) * m_mul2 (j * N + k)
          else 0) (fun _ _ => rfl)]
    simp only [Nat.zero_add]
  simp only [hj]
  rw [forLoop_add _ (fun i p => ∑ j ∈ Finset.range block_size,
          if p = i * N + j then
            ∑ k ∈ Finset.range block_size, a_buf (i * N + k) * m_mul2 (j * N + k)
          else 0) (fun _ _ => rfl)]
  simp only [Nat.zero_add]

/-- A loop whose body adds an amount `d i` to a scalar projection `φ` of the state. -/
theorem forLoop_acc {σ : Type} (body : ℕ → σ → σ) (φ : σ → ℚ) (d : ℕ → ℚ)
    (h : ∀ i s, φ (body i s) = φ s + d i) (n : ℕ) :
    ∀ (i0 : ℕ) (s : σ),
      φ (forLoop body n i0 s) = φ s + ∑ t ∈ Finset.range n, d (i0 + t) := by
  induction n with
  | zero => intro i0 s; simp [forLoop]
  | succ n ih =>
    intro i0 s
    simp only [forLoop]
    rw [ih (i0 + 1) (body i0 s), h i0 s, Finset.sum_range_succ']
    simp only [add_zero]
    have : ∀ t, i0 + 1 + t = i0 + (t + 1) := fun t => by omega
    simp only [this]
    ring

/-- A strided loop over a bound that is a multiple of the stride is a counted loop. -/
theorem forLoopStep_mul {σ : Type} (step : ℕ) (hs : 0 < step) (body : ℕ → σ → σ) (m : ℕ) :
    ∀ (d t0 : ℕ) (s : σ), t0 + d = m →
      forLoopStep step body (m * step) (t0 * step) s
        = forLoop (fun t s => body (t * step) s) d t0 s := by
  intro d
  induction d with
  | zero =>
    intro t0 s h
    have : t0 = m := by omega
    subst this
    rw [forLoopStep]
    simp [forLoop]
  | succ d ih =>
    intro t0 s h
    rw [forLoopStep]
    have hlt : t0 * step < m * step := Nat.mul_lt_mul_of_pos_right (by omega) hs
    rw [if_pos ⟨hlt, hs⟩]
    have hstep : t0 * step + step = (t0 + 1) * step := by ring
    rw [hstep, ih (t0 + 1) (body (t0 * step) s) (by omega)]
    rfl

theorem sum_range_mul_four (f : ℕ → ℚ) (m : ℕ) :
    ∑ k ∈ Finset.range (m * 4), f k
      = ∑ t ∈ Finset.range m, (f (t * 4) + f (t * 4 + 1) + f (t * 4 + 2) + f (t * 4 + 3)) := by
  induction m with
  | zero => simp
  | succ m ih =>
    have h4 : (m + 1) * 4 = m * 4 + 1 + 1 + 1 + 1 := by ring
    rw [h4, Finset.sum_range_succ, Finset.sum_range_succ, Finset.sum_range_succ,
      Finset.sum_range_succ, ih, Finset.sum_range_succ]
    ring

/-- The vectorised dot product of `kernelMulMatrix_VT_BL_TP`, reduced horizontally, equals the
scalar dot product of `kernelMulMatrix_TP_BL_NV` when the block size is a multiple of four. -/
theorem dot_VT_eq_dot_NV (a_buf m_mul2 : Buf) (a b m : ℕ) :
    (forLoopStep 4 (fun k (rk : M256d) =>
          mm256_add_pd rk (mm256_mul_pd (mm256_loadu_pd m_mul2 (b + k))
            (mm256_loadu_pd a_buf (a + k)))) (m * 4) 0 mm256_setzero_pd).1
      + (forLoopStep 4 (fun k (rk : M256d) =>
          mm256_add_pd rk (mm256_mul_pd (mm256_loadu_pd m_mul2 (b + k))
            (mm256_loadu_pd a_buf (a + k)))) (m * 4) 0 mm256_setzero_pd).2.1
      + (forLoopStep 4 (fun k (rk : M256d) =>
          mm256_add_pd rk (mm256_mul_pd (mm256_loadu_pd m_mul2 (b + k))
            (mm256_loadu_pd a_buf (a + k)))) (m * 4) 0 mm256_setzero_pd).2.2.1
      + (forLoopStep 4 (fun k (rk : M256d) =>
          mm256_add_pd rk (mm256_mul_pd (mm256_loadu_pd m_mul2 (b + k))
            (mm256_loadu_pd a_buf (a + k)))) (m * 4) 0 mm256_setzero_pd).2.2.2
      = forLoop (fun k (t : ℚ) => t + a_buf (a + k) * m_mul2 (b + k)) (m * 4) 0 0 := by
  have h0 := forLoopStep_mul 4 (by decide) (fun k (rk : M256d) =>
          mm256_add_pd rk (mm256_mul_pd (mm256_loadu_pd m_mul2 (b + k))
            (mm256_loadu_pd a_buf (a + k)))) m m 0 mm256_setzero_pd (by omega)
  rw [Nat.zero_mul] at h0
  rw [h0, forLoop_sum]
  have h1 := forLoop_acc (fun t (rk : M256d) =>
          mm256_add_pd rk (mm256_mul_pd (mm256_loadu_pd m_mul2 (b + t * 4))
            (mm256_loadu_pd a_buf (a + t * 4))))
      (fun rk => rk.1 + rk.2.1 + rk.2.2.1 + rk.2.2.2)
      (fun t => a_buf (a + t * 4) * m_mul2 (b + t * 4)
        + a_buf (a + (t * 4 + 1)) * m_mul2 (b + (t * 4 + 1))
        + a_buf (a + (t * 4 + 2)) * m_mul2 (b + (t * 4 + 2))
        + a_buf (a + (t * 4 + 3)) * m_mul2 (b + (t * 4 + 3)))
      (by
        intro t rk
        simp only [mm256_add_pd, mm256_mul_pd, mm256_loadu_pd, Nat.add_assoc]
        ring) m 0 mm256_setzero_pd
  simp only [] at h1
  rw [h1]
  simp only [mm256_setzero_pd, Nat.zero_add, add_zero, zero_add]
  rw [sum_range_mul_four (fun k => a_buf (a + k) * m_mul2 (b + k)) m]

/-- Closed form of `kernelMulMatrix_BL_NV` with the sum over `k` innermost. -/
theorem kernelMulMatrix_BL_NV_apply_dot (m_res m_mul1 m_mul2 : Buf) (block_size p : ℕ) :
    kernelMulMatrix_BL_NV m_res m_mul1 m_mul2 block_size p
      = m_res p + ∑ i ∈ Finset.range block_size, ∑ j ∈ Finset.range block_size,
          if p = i * N + j then
            ∑ k ∈ Finset.range block_size, m_mul1 (i * N + k) * m_mul2 (k * N + j)
          else 0 := by
  rw [kernelMulMatrix_BL_NV_apply]
  congr 1
  refine Finset.sum_congr rfl (fun i _ => ?_)
  rw [Finset.sum_comm]
  refine Finset.sum_congr rfl (fun j _ => ?_)
  split_ifs with h
  · rfl
  · simp

/-- Eight consecutive cells `r, ..., r + 7` overwritten by `res[r + l] + v_l`. -/
theorem store8_add_apply (res : Buf) (r : ℕ) (v0 v1 v2 v3 v4 v5 v6 v7 : ℚ) :
    store (store (store (store (store (store (store (store res
        r (res r + v0)) (r + 1) (res (r + 1) + v1)) (r + 2) (res (r + 2) + v2))
        (r + 3) (res (r + 3) + v3)) (r + 4) (res (r + 4) + v4)) (r + 5) (res (r + 5) + v5))
        (r + 6) (res (r + 6) + v6)) (r + 7) (res (r + 7) + v7)
      = fun p => res p + ((if p = r then v0 else 0) + (if p = r + 1 then v1 else 0)
          + (if p = r + 2 then v2 else 0) + (if p = r + 3 then v3 else 0)
          + (if p = r + 4 then v4 else 0) + (if p = r + 5 then v5 else 0)
          + (if p = r + 6 then v6 else 0) + (if p = r + 7 then v7 else 0)) := by
  funext p
  simp only [store]
  by_cases h7 : p = r + 7
  · subst h7; simp
  by_cases h6 : p = r + 6
  · subst h6; simp
  by_cases h5 : p = r + 5
  · subst h5; simp
  by_cases h4 : p = r + 4
  · subst h4; simp
  by_cases h3 : p = r + 3
  · subst h3; simp
  by_cases h2 : p = r + 2
  · subst h2; simp
  by_cases h1 : p = r + 1
  · subst h1; simp
  by_cases h0 : p = r
  · subst h0; simp
  simp [h0, h1, h2, h3, h4, h5, h6, h7]

/-- Variant of `forLoop_add` with the body written as a pointwise sum. -/
theorem forLoop_add_fun (d : ℕ → ℕ → ℚ) (n i0 : ℕ) (s : Buf) :
    forLoop (fun i (s : Buf) => fun p => s p + d i p) n i0 s
      = fun p => s p + ∑ t ∈ Finset.range n, d (i0 + t) p :=
  forLoop_add _ d (fun _ _ => rfl) n i0 s

/-- Variant of `forLoop_ptr` for a body given as a function of the whole state. -/
theorem forLoop_ptr_state {σ : Type} (G : ℕ → σ × ℕ → σ) (c : ℕ) (n : ℕ) (i0 : ℕ) (s : σ)
    (p0 : ℕ) :
    forLoop (fun i (t : σ × ℕ) => (G i t, t.2 + c)) n i0 (s, p0)
      = (forLoop (fun i s => G i (s, p0 + (i - i0) * c)) n i0 s, p0 + n * c) :=
  forLoop_ptr (fun i p s => G i (s, p)) c n i0 s p0

/-- Variant of `forLoop_ptr2` for a body given as a function of the whole state. -/
theorem forLoop_ptr2_state {σ : Type} (G : ℕ → σ × ℕ × ℕ → σ) (c d : ℕ) (n : ℕ) (i0 : ℕ)
    (s : σ) (p0 q0 : ℕ) :
    forLoop (fun i (t : σ × ℕ × ℕ) => (G i t, t.2.1 + c, t.2.2 + d)) n i0 (s, p0, q0)
      = (forLoop (fun i s => G i (s, p0 + (i - i0) * c, q0 + (i - i0) * d)) n i0 s,
          p0 + n * c, q0 + n * d) :=
  forLoop_ptr2 (fun i p q s => G i (s, p, q)) c d n i0 s p0 q0

/-- The four 128-bit accumulators of `mulMatrix_128VL_BL` after the `k2` loop. -/
theorem forLoop_fmadd128 (x y0 y1 y2 y3 y4 y5 y6 y7 : ℕ → ℚ) (n : ℕ) :
    ∀ (i0 : ℕ) (s : M128d × M128d × M128d × M128d),
      forLoop (fun k (s : M128d × M128d × M128d × M128d) =>
          (((y0 k * x k + s.1.1, y1 k * x k + s.1.2),
            (y2 k * x k + s.2.1.1, y3 k * x k + s.2.1.2),
            (y4 k * x k + s.2.2.1.1, y5 k * x k + s.2.2.1.2),
            (y6 k * x k + s.2.2.2.1, y7 k * x k + s.2.2.2.2)) :
            M128d × M128d × M128d × M128d)) n i0 s
        = ((s.1.1 + ∑ t ∈ Finset.range n, x (i0 + t) * y0 (i0 + t),
            s.1.2 + ∑ t ∈ Finset.range n, x (i0 + t) * y1 (i0 + t)),
           (s.2.1.1 + ∑ t ∈ Finset.range n, x (i0 + t) * y2 (i0 + t),
            s.2.1.2 + ∑ t ∈ Finset.range n, x (i0 + t) * y3 (i0 + t)),
           (s.2.2.1.1 + ∑ t ∈ Finset.range n, x (i0 + t) * y4 (i0 + t),
            s.2.2.1.2 + ∑ t ∈ Finset.range n, x (i0 + t) * y5 (i0 + t)),
           (s.2.2.2.1 + ∑ t ∈ Finset.range n, x (i0 + t) * y6 (i0 + t),
            s.2.2.2.2 + ∑ t ∈ Finset.range n, x (i0 + t) * y7 (i0 + t))) := by
  induction n with
  | zero => intro i0 s; simp [forLoop]
  | succ n ih =>
    intro i0 s
    simp only [forLoop]
    rw [ih]
    have hs : ∀ t, i0 + 1 + t = i0 + (t + 1) := fun t => by omega
    simp only [Finset.sum_range_succ' _ n, hs, add_zero]
    refine Prod.ext (Prod.ext ?_ ?_) (Prod.ext (Prod.ext ?_ ?_)
      (Prod.ext (Prod.ext ?_ ?_) (Prod.ext ?_ ?_))) <;> simp only [] <;> ring

/-- Closed form of `mulMatrix_128VL_BL` for every block size: eight columns are accumulated in
each of the `block_size` rows. -/
theorem mulMatrix_128VL_BL_apply (rres_buf rmul1_buf m_mul2 : Buf) (block_size p : ℕ) :
    mulMatrix_128VL_BL rres_buf rmul1_buf m_mul2 block_size p
      = rres_buf p + ∑ i ∈ Finset.range block_size, ∑ j ∈ Finset.range 8,
          if p = i * N + j then
            ∑ k ∈ Finset.range block_size, rmul1_buf (i * N + k) * m_mul2 (k * N + j)
          else 0 := by
  unfold mulMatrix_128VL_BL
  simp only []
  rw [forLoop_ptr2_state]
  simp only [forLoop_ptr_state]
  simp only [mm_fmadd_pd, mm_load_pd, mm_load_sd, mm_unpacklo_pd, mm_store_pd, Nat.zero_add,
    Nat.sub_zero, Nat.add_zero, Nat.add_assoc, Nat.reduceAdd]
  simp only [forLoop_fmadd128, Nat.zero_add]
  simp only [store8_add_apply]
  rw [forLoop_add_fun]
  refine congrArg _ (Finset.sum_congr rfl (fun i _ => ?_))
  set_option maxRecDepth 8000 in
  simp only [Finset.sum_range_succ, Finset.sum_range_zero, zero_add, Nat.add_zero]

/-- The two 256-bit accumulators of `mulMatrix_256VL_BL` after the `k2` loop. -/
theorem forLoop_fmadd256 (x y0 y1 y2 y3 y4 y5 y6 y7 : ℕ → ℚ) (n : ℕ) :
    ∀ (i0 : ℕ) (s : M256d × M256d),
      forLoop (fun k (s : M256d × M256d) =>
          (((s.1.1 + y0 k * x k, s.1.2.1 + y1 k * x k, s.1.2.2.1 + y2 k * x k,
              s.1.2.2.2 + y3 k * x k),
            (s.2.1 + y4 k * x k, s.2.2.1 + y5 k * x k, s.2.2.2.1 + y6 k * x k,
              s.2.2.2.2 + y7 k * x k)) : M256d × M256d)) n i0 s
        = ((s.1.1 + ∑ t ∈ Finset.range n, x (i0 + t) * y0 (i0 + t),
            s.1.2.1 + ∑ t ∈ Finset.range n, x (i0 + t) * y1 (i0 + t),
            s.1.2.2.1 + ∑ t ∈ Finset.range n, x (i0 + t) * y2 (i0 + t),
            s.1.2.2.2 + ∑ t ∈ Finset.range n, x (i0 + t) * y3 (i0 + t)),
           (s.2.1 + ∑ t ∈ Finset.range n, x (i0 + t) * y4 (i0 + t),
            s.2.2.1 + ∑ t ∈ Finset.range n, x (i0 + t) * y5 (i0 + t),
            s.2.2.2.1 + ∑ t ∈ Finset.range n, x (i0 + t) * y6 (i0 + t),
            s.2.2.2.2 + ∑ t ∈ Finset.range n, x (i0 + t) * y7 (i0 + t))) := by
  induction n with
  | zero => intro i0 s; simp [forLoop]
  | succ n ih =>
    intro i0 s
    simp only [forLoop]
    rw [ih]
    have hs : ∀ t, i0 + 1 + t = i0 + (t + 1) := fun t => by omega
    simp only [Finset.sum_range_succ' _ n, hs, add_zero]
    refine Prod.ext (Prod.ext ?_ (Prod.ext ?_ (Prod.ext ?_ ?_)))
      (Prod.ext ?_ (Prod.ext ?_ (Prod.ext ?_ ?_))) <;> simp only [] <;> ring

/-- Closed form of `mulMatrix_256VL_BL` for every block size: eight columns are accumulated in
each of the `block_size` rows. -/
theorem mulMatrix_256VL_BL_apply (rres_buf rmul1_buf m_mul2 : Buf) (block_size p : ℕ) :
    mulMatrix_256VL_BL rres_buf rmul1_buf m_mul2 block_size p
      = rres_buf p + ∑ i ∈ Finset.range block_size, ∑ j ∈ Finset.range 8,
          if p = i * N + j then
            ∑ k ∈ Finset.range block_size, rmul1_buf (i * N + k) * m_mul2 (k * N + j)
          else 0 := by
  unfold mulMatrix_256VL_BL
  simp only []
  rw [forLoop_ptr2_state]
  simp only [forLoop_ptr_state]
  simp only [mm256_add_pd, mm256_mul_pd, mm256_loadu_pd, mm256_broadcast_sd, mm256_storeu_pd,
    Nat.zero_add, Nat.sub_zero, Nat.add_zero, Nat.add_assoc, Nat.reduceAdd]
  simp only [forLoop_fmadd256, Nat.zero_add]
  simp only [store8_add_apply]
  rw [forLoop_add_fun]
  refine congrArg _ (Finset.sum_congr rfl (fun i _ => ?_))
  set_option maxRecDepth 8000 in
  simp only [Finset.sum_range_succ, Finset.sum_range_zero, zero_add, Nat.add_zero]

/-! ## Assignment loops -/

/-- A loop that assigns `v j` to the cell `base + j`. -/
theorem forLoop_store_row (base : ℕ) (v : ℕ → ℚ) (n : ℕ) :
    ∀ (j0 : ℕ) (m : Buf) (q : ℕ),
      forLoop (fun j (m : Buf) => store m (base + j) (v j)) n j0 m q
        = if base + j0 ≤ q ∧ q < base + j0 + n then v (q - base) else m q := by
  induction n with
  | zero =>
    intro j0 m q
    simp only [forLoop]
    rw [if_neg]; omega
  | succ n ih =>
    intro j0 m q
    simp only [forLoop]
    rw [ih (j0 + 1) (store m (base + j0) (v j0)) q]
    unfold store
    by_cases h1 : base + (j0 + 1) ≤ q ∧ q < base + (j0 + 1) + n
    · rw [if_pos h1, if_pos (by omega)]
    · rw [if_neg h1]
      by_cases h2 : q = base + j0
      · rw [if_pos h2, if_pos (by omega)]
        subst h2
        congr 1
        omega
      · rw [if_neg h2, if_neg (by omega)]

/-- Rows below the first row written by a nested assignment loop are untouched. -/
theorem forLoop_store_rows_below (c : ℕ) (f : ℕ → ℕ → ℚ) (n : ℕ) :
    ∀ (i0 : ℕ) (m : Buf) (q : ℕ), q < i0 * c →
      forLoop (fun i (m : Buf) =>
          forLoop (fun j (m : Buf) => store m (i * c + j) (f i j)) c 0 m) n i0 m q = m q := by
  induction n with
  | zero => intro i0 m q _; rfl
  | succ n ih =>
    intro i0 m q hq
    simp only [forLoop]
    have h1 : (i0 + 1) * c = i0 * c + c := by ring
    rw [ih (i0 + 1) _ q (by omega), forLoop_store_row, if_neg (by omega)]

/-- A nested assignment loop `for i, for j: m[i * c + j] = f i j` leaves `f i j` in the cell
`i * c + j` of every row `i` it visits. -/
theorem forLoop_store_rows (c : ℕ) (f : ℕ → ℕ → ℚ) (n : ℕ) :
    ∀ (i0 : ℕ) (m : Buf) (i j : ℕ), i0 ≤ i → i < i0 + n → j < c →
      forLoop (fun i (m : Buf) =>
          forLoop (fun j (m : Buf) => store m (i * c + j) (f i j)) c 0 m) n i0 m (i * c + j)
        = f i j := by
  induction n with
  | zero => intro i0 m i j h1 h2 _; omega
  | succ n ih =>
    intro i0 m i j h1 h2 hj
    simp only [forLoop]
    by_cases h : i = i0
    · subst h
      have h3 : (i + 1) * c = i * c + c := by ring
      rw [forLoop_store_rows_below c f n (i + 1) _ (i * c + j) (by omega), forLoop_store_row,
        if_pos (by omega)]
      congr 1
      omega
    · exact ih (i0 + 1) _ i j (by omega) (by omega) hj

/-- Simulation of a loop by another loop through a state map `φ`, under an invariant `P`. -/
theorem forLoop_sim {σ τ : Type} (φ : σ → τ) (P : σ → Prop) (body : ℕ → σ → σ)
    (body' : ℕ → τ → τ) (n : ℕ) :
    ∀ (i0 : ℕ) (s : σ), P s →
      (∀ i s, i0 ≤ i → i < i0 + n → P s → P (body i s) ∧ φ (body i s) = body' i (φ s)) →
      P (forLoop body n i0 s) ∧ φ (forLoop body n i0 s) = forLoop body' n i0 (φ s) := by
  induction n with
  | zero => intro i0 s hP _; exact ⟨hP, rfl⟩
  | succ n ih =>
    intro i0 s hP h
    simp only [forLoop]
    obtain ⟨hP1, h1⟩ := h i0 s (le_refl _) (by omega) hP
    rw [← h1]
    exact ih (i0 + 1) (body i0 s) hP1 (fun i s hi1 hi2 hs => h i s (by omega) (by omega) hs)

/-! ## The matrix container -/

theorem Matrix.get_set (t : Matrix) (q : ℕ) (v : ℚ) (hq : q < t.matrix.size) :
    (t.set q v).get = store t.get q v := by
  funext p
  unfold Matrix.get Matrix.set store
  simp only [Array.getD_eq_get?]
  by_cases h : p = q
  · subst h
    rw [if_pos rfl, Array.getD_get?_setD, if_pos hq]
  · rw [if_neg h]
    simp only [Array.setD, hq, dite_true]
    rw [Array.getElem?_set_ne]
    exact fun h' => h (by simpa using h'.symm)

theorem Matrix.get_new (r c q : ℕ) : (Matrix.new r c).get q = 0 := by
  unfold Matrix.get Matrix.new
  simp only [Array.getD_eq_get?, Array.getElem?_mkArray]
  split_ifs <;> rfl

/-- What `transpose` computes, for every shape: the result is `col × row`, its buffer has
`col * row` cells, and the cell `i * col + j` holds the source cell `j * row + i`. -/
theorem transpose_spec (m : Matrix) :
    (transpose m).row_cnt = m.col_cnt ∧ (transpose m).col_cnt = m.row_cnt
      ∧ (transpose m).matrix.size = m.col_cnt * m.row_cnt
      ∧ ∀ i j, i < m.row_cnt → j < m.col_cnt →
          (transpose m).get (i * m.col_cnt + j) = m.get (j * m.row_cnt + i) := by
  have inner : ∀ (i : ℕ) (t : Matrix), i < m.row_cnt →
      (t.row_cnt = m.col_cnt ∧ t.col_cnt = m.row_cnt ∧ t.matrix.size = m.col_cnt * m.row_cnt) →
      (fun t : Matrix =>
          t.row_cnt = m.col_cnt ∧ t.col_cnt = m.row_cnt
            ∧ t.matrix.size = m.col_cnt * m.row_cnt)
        (forLoop (fun j (t : Matrix) =>
          t.set (i * m.col_cnt + j) (m.get (j * m.row_cnt + i))) m.col_cnt 0 t)
      ∧ (forLoop (fun j (t : Matrix) =>
          t.set (i * m.col_cnt + j) (m.get (j * m.row_cnt + i))) m.col_cnt 0 t).get
        = forLoop (fun j (b : Buf) =>
            store b (i * m.col_cnt + j) ((fun i j => m.get (j * m.row_cnt + i)) i j))
            m.col_cnt 0 t.get := by
    intro i t hi hP
    refine forLoop_sim Matrix.get (fun t : Matrix =>
          t.row_cnt = m.col_cnt ∧ t.col_cnt = m.row_cnt
            ∧ t.matrix.size = m.col_cnt * m.row_cnt) _ _ m.col_cnt 0 t hP ?_
    intro j t' _ hj hP'
    have hb : i * m.col_cnt + j < t'.matrix.size := by
      rw [hP'.2.2]
      calc i * m.col_cnt + j < i * m.col_cnt + m.col_cnt := by omega
        _ = m.col_cnt * (i + 1) := by ring
        _ ≤ m.col_cnt * m.row_cnt := Nat.mul_le_mul_left _ hi
    refine ⟨⟨hP'.1, hP'.2.1, ?_⟩, Matrix.get_set t' _ _ hb⟩
    simp only [Matrix.set, Array.size_setD]
    exact hP'.2.2
  have hnew : (Matrix.new m.col_cnt m.row_cnt).row_cnt = m.col_cnt
      ∧ (Matrix.new m.col_cnt m.row_cnt).col_cnt = m.row_cnt
      ∧ (Matrix.new m.col_cnt m.row_cnt).matrix.size = m.col_cnt * m.row_cnt := by
    simp [Matrix.new]
  have outer := forLoop_sim Matrix.get
    (fun t : Matrix =>
      t.row_cnt = m.col_cnt ∧ t.col_cnt = m.row_cnt ∧ t.matrix.size = m.col_cnt * m.row_cnt)
    (fun i (t : Matrix) => forLoop (fun j (t : Matrix) =>
        t.set (i * m.col_cnt + j) (m.get (j * m.row_cnt + i))) m.col_cnt 0 t)
    (fun i (b : Buf) => forLoop (fun j (b : Buf) =>
        store b (i * m.col_cnt + j) ((fun i j => m.get (j * m.row_cnt + i)) i j)) m.col_cnt 0 b)
    m.row_cnt 0 (Matrix.new m.col_cnt m.row_cnt) hnew
    (fun i t _ hi hP => inner i t (by omega) hP)
  obtain ⟨⟨h1, h2, h3⟩, h4⟩ := outer
  refine ⟨h1, h2, h3, ?_⟩
  intro i j hi hj
  have h5 := congrFun h4 (i * m.col_cnt + j)
  rw [forLoop_store_rows m.col_cnt (fun i j => m.get (j * m.row_cnt + i)) m.row_cnt 0 _ i j
    (Nat.zero_le _) (by omega) hj] at h5
  exact h5

/-- The comparison loop returns `true` exactly when every visited cell is within the
tolerance. -/
theorem operator_eq_loop_iff (s1 s2 : Matrix) (n : ℕ) :
    ∀ idx0 : ℕ, operator_eq_loop s1 s2 n idx0 = true
      ↔ ∀ idx, idx0 ≤ idx → idx < idx0 + n → |s1.get idx - s2.get idx| ≤ DBL_EPSILON := by
  induction n with
  | zero =>
    intro idx0
    simp only [operator_eq_loop, true_iff]
    intro idx h1 h2
    omega
  | succ n ih =>
    intro idx0
    simp only [operator_eq_loop]
    by_cases h : |s1.get idx0 - s2.get idx0| > DBL_EPSILON
    · rw [if_pos h]
      simp only [Bool.false_eq_true, false_iff, not_forall]
      exact ⟨idx0, le_refl _, by omega, not_le.mpr h⟩
    · rw [if_neg h, ih (idx0 + 1)]
      constructor
      · intro hall idx h1 h2
        by_cases he : idx = idx0
        · subst he; exact not_lt.mp h
        · exact hall idx (by omega) (by omega)
      · intro hall idx h1 h2
        exact hall idx (by omega) (by omega)

/-- Function `operator==` returns `true` exactly when the dimensions match and every cell is
within the tolerance. -/
theorem operator_eq_iff (s1 s2 : Matrix) :
    operator_eq s1 s2 = true
      ↔ s1.row = s2.row ∧ s1.col = s2.col
        ∧ ∀ idx, idx < s1.row * s1.col → |s1.get idx - s2.get idx| ≤ DBL_EPSILON := by
  unfold operator_eq
  simp only []
  by_cases hc : s1.col = s2.col
  · by_cases hr : s1.row = s2.row
    · rw [if_neg (not_not.mpr hc), if_neg (not_not.mpr hr), operator_eq_loop_iff]
      constructor
      · intro h
        exact ⟨hr, hc, fun idx hidx => h idx (Nat.zero_le _) (by omega)⟩
      · intro h idx _ hidx
        exact h.2.2 idx (by omega)
    · rw [if_neg (not_not.mpr hc), if_pos hr]
      simp only [Bool.false_eq_true, false_iff]
      exact fun h => hr h.1
  · rw [if_pos hc]
    simp only [Bool.false_eq_true, false_iff]
    exact fun h => hc h.2.1

theorem DBL_EPSILON_nonneg : 0 ≤ DBL_EPSILON := by
  unfold DBL_EPSILON
  positivity

theorem operator_eq_refl (s : Matrix) : operator_eq s s = true := by
  rw [operator_eq_iff]
  refine ⟨rfl, rfl, fun idx _ => ?_⟩
  rw [sub_self, abs_zero]
  exact DBL_EPSILON_nonneg

/-! ## The fixed-size driver of `cmatrix.c` -/

/-- Two consecutive cells `r`, `r + 1` overwritten by `y0 + res[r]`, `y1 + res[r + 1]`. -/
theorem store2_add_apply (res : Buf) (r : ℕ) (y0 y1 : ℚ) :
    store (store res r (y0 + res r)) (r + 1) (y1 + res (r + 1))
      = fun p => res p + ((if p = r then y0 else 0) + (if p = r + 1 then y1 else 0)) := by
  funext p
  simp only [store]
  by_cases h1 : p = r + 1
  · subst h1; simp [add_comm]
  by_cases h0 : p = r
  · subst h0; simp [add_comm]
  simp [h0, h1]

/-- Closed form of one tile of `cmultiplyMatrix`: the sum over tile rows `i2`, tile depths `k2`
and column pairs `t` of the two products stored by one `_mm_store_pd`. -/
theorem cmultiplyMatrix_tile_apply (g : cmatrix.Globals) (i j k : ℕ) (res : Buf) :
    cmatrix.cmultiplyMatrix_tile g i j k res
      = fun p => res p + ∑ i2 ∈ Finset.range 8, ∑ k2 ∈ Finset.range 8, ∑ t ∈ Finset.range 4,
            ((if p = i * cmatrix.N + j + i2 * cmatrix.N + t * 2 then
                g.mul2 (k * cmatrix.N + j + k2 * cmatrix.N + t * 2)
                  * g.mul1 (i * cmatrix.N + k + i2 * cmatrix.N + k2)
              else 0)
            + (if p = i * cmatrix.N + j + i2 * cmatrix.N + t * 2 + 1 then
                g.mul2 (k * cmatrix.N + j + k2 * cmatrix.N + t * 2 + 1)
                  * g.mul1 (i * cmatrix.N + k + i2 * cmatrix.N + k2)
              else 0)) := by
  unfold cmatrix.cmultiplyMatrix_tile
  simp only []
  have hSM : cmatrix.SM = 8 := by decide
  have h2 : ∀ (body : ℕ → Buf → Buf) (s : Buf),
      forLoopStep 2 body 8 0 s = forLoop (fun t s => body (t * 2) s) 4 0 s := by
    intro body s
    have := forLoopStep_mul 2 (by decide) body 4 4 0 s (by omega)
    rw [Nat.zero_mul] at this
    exact this
  rw [hSM]
  simp only [h2]
  simp only [forLoop_ptr_state]
  simp only [forLoop_ptr2_state]
  simp only [mm_store_pd, mm_add_pd, mm_mul_pd, mm_load_pd, mm_load_sd, mm_unpacklo_pd,
    Nat.sub_zero]
  simp only [store2_add_apply, forLoop_add_fun, Nat.zero_add]

/-- A strided loop from zero to a multiple of the stride, as a counted loop. -/
theorem forLoopStep_zero {σ : Type} (step m bound : ℕ) (hs : 0 < step) (hb : bound = m * step)
    (body : ℕ → σ → σ) (s : σ) :
    forLoopStep step body bound 0 s = forLoop (fun t s => body (t * step) s) m 0 s := by
  have h := forLoopStep_mul step hs body m m 0 s (by omega)
  rw [Nat.zero_mul, ← hb] at h
  exact h

/-- Three nested strided loops whose innermost body adds `d i j k` to every cell. -/
theorem forLoopStep_add3 (d : ℕ → ℕ → ℕ → ℕ → ℚ) (step m bound : ℕ) (hs : 0 < step)
    (hb : bound = m * step) (s : Buf) :
    forLoopStep step (fun i (res : Buf) =>
        forLoopStep step (fun j (res : Buf) =>
          forLoopStep step (fun k (res : Buf) => fun p => res p + d i j k p) bound 0 res)
          bound 0 res)
        bound 0 s
      = fun p => s p + ∑ ti ∈ Finset.range m, ∑ tj ∈ Finset.range m, ∑ tk ∈ Finset.range m,
          d (ti * step) (tj * step) (tk * step) p := by
  simp only [forLoopStep_zero step m bound hs hb, forLoop_add_fun, Nat.zero_add]

/-- Closed form of the result array after `cmultiplyMatrix`: the sum of the tile contributions
over all tile origins `(ti * 8, tj * 8, tk * 8)`. -/
theorem cmultiplyMatrix_res_apply (g : cmatrix.Globals) (p : ℕ) :
    (cmatrix.cmultiplyMatrix g).2.res p
      = g.res p + ∑ ti ∈ Finset.range 125, ∑ tj ∈ Finset.range 125, ∑ tk ∈ Finset.range 125,
          ∑ i2 ∈ Finset.range 8, ∑ k2 ∈ Finset.range 8, ∑ t ∈ Finset.range 4,
            ((if p = ti * 8 * cmatrix.N + tj * 8 + i2 * cmatrix.N + t * 2 then
                g.mul2 (tk * 8 * cmatrix.N + tj * 8 + k2 * cmatrix.N + t * 2)
                  * g.mul1 (ti * 8 * cmatrix.N + tk * 8 + i2 * cmatrix.N + k2)
              else 0)
            + (if p = ti * 8 * cmatrix.N + tj * 8 + i2 * cmatrix.N + t * 2 + 1 then
                g.mul2 (tk * 8 * cmatrix.N + tj * 8 + k2 * cmatrix.N + t * 2 + 1)
                  * g.mul1 (ti * 8 * cmatrix.N + tk * 8 + i2 * cmatrix.N + k2)
              else 0)) := by
  unfold cmatrix.cmultiplyMatrix
  simp only [cmultiplyMatrix_tile_apply]
  have hSM : cmatrix.SM = 8 := by decide
  rw [hSM, forLoopStep_add3 _ 8 125 cmatrix.N (by decide) (by decide)]

theorem sum_range_mul_block (f : ℕ → ℚ) (n m : ℕ) :
    ∑ t ∈ Finset.range m, ∑ u ∈ Finset.range n, f (t * n + u)
      = ∑ k ∈ Finset.range (m * n), f k := by
  induction m with
  | zero => simp
  | succ m ih =>
    have h : (m + 1) * n = m * n + n := by ring
    rw [Finset.sum_range_succ, ih, h, Finset.sum_range_add]

/-- The result cell `(i, j)` after `cmultiplyMatrix`, for `i, j < N`. -/
theorem cmultiplyMatrix_res_cell (g : cmatrix.Globals) (i j : ℕ) (hi : i < cmatrix.N)
    (hj : j < cmatrix.N) :
    (cmatrix.cmultiplyMatrix g).2.res (i * cmatrix.N + j)
      = g.res (i * cmatrix.N + j)
        + ∑ k ∈ Finset.range cmatrix.N, g.mul1 (i * cmatrix.N + k) * g.mul2 (k * cmatrix.N + j) := by
  rw [cmultiplyMatrix_res_apply]
  refine congrArg (fun x => g.res (i * cmatrix.N + j) + x) ?_
  simp only [cmatrix.N] at hi hj ⊢
  rw [Finset.sum_eq_single (i / 8)]
  · rw [Finset.sum_eq_single (j / 8)]
    · have hsum : ∑ k ∈ Finset.range 1000, g.mul1 (i * 1000 + k) * g.mul2 (k * 1000 + j)
          = ∑ tk ∈ Finset.range 125, ∑ k2 ∈ Finset.range 8,
              g.mul1 (i * 1000 + (tk * 8 + k2)) * g.mul2 ((tk * 8 + k2) * 1000 + j) :=
        (sum_range_mul_block (fun k => g.mul1 (i * 1000 + k) * g.mul2 (k * 1000 + j)) 8 125).symm
      rw [hsum]
      refine Finset.sum_congr rfl (fun tk _ => ?_)
      rw [Finset.sum_eq_single (i % 8)]
      · refine Finset.sum_congr rfl (fun k2 _ => ?_)
        rw [Finset.sum_eq_single (j % 8 / 2)]
        · have e1 : i / 8 * 8 * 1000 + tk * 8 + i % 8 * 1000 + k2 = i * 1000 + (tk * 8 + k2) := by
            omega
          rw [e1]
          rcases Nat.mod_two_eq_zero_or_one j with hpar | hpar
          · have c1 : i * 1000 + j = i / 8 * 8 * 1000 + j / 8 * 8 + i % 8 * 1000 + j % 8 / 2 * 2 := by
              omega
            have c2 : ¬ (i * 1000 + j
                = i / 8 * 8 * 1000 + j / 8 * 8 + i % 8 * 1000 + j % 8 / 2 * 2 + 1) := by
              omega
            have e2 : tk * 8 * 1000 + j / 8 * 8 + k2 * 1000 + j % 8 / 2 * 2
                = (tk * 8 + k2) * 1000 + j := by omega
            rw [if_pos c1, if_neg c2, add_zero, e2, mul_comm]
          · have c1 : ¬ (i * 1000 + j
                = i / 8 * 8 * 1000 + j / 8 * 8 + i % 8 * 1000 + j % 8 / 2 * 2) := by
              omega
            have c2 : i * 1000 + j
                = i / 8 * 8 * 1000 + j / 8 * 8 + i % 8 * 1000 + j % 8 / 2 * 2 + 1 := by
              omega
            have e2 : tk * 8 * 1000 + j / 8 * 8 + k2 * 1000 + j % 8 / 2 * 2 + 1
                = (tk * 8 + k2) * 1000 + j := by omega
            rw [if_neg c1, if_pos c2, zero_add, e2, mul_comm]
        · intro t ht hne
          rw [Finset.mem_range] at ht
          rw [if_neg (by omega), if_neg (by omega), add_zero]
        · intro h
          exact absurd (Finset.mem_range.mpr (by omega)) h
      · intro i2 hi2 hne
        rw [Finset.mem_range] at hi2
        refine Finset.sum_eq_zero (fun k2 _ => Finset.sum_eq_zero (fun t ht => ?_))
        rw [Finset.mem_range] at ht
        rw [if_neg (by omega), if_neg (by omega), add_zero]
      · intro h
        exact absurd (Finset.mem_range.mpr (by omega)) h
    · intro tj htj hne
      rw [Finset.mem_range] at htj
      refine Finset.sum_eq_zero (fun tk _ => Finset.sum_eq_zero (fun i2 hi2 =>
        Finset.sum_eq_zero (fun k2 _ => Finset.sum_eq_zero (fun t ht => ?_))))
      rw [Finset.mem_range] at hi2 ht
      rw [if_neg (by omega), if_neg (by omega), add_zero]
    · intro h
      exact absurd (Finset.mem_range.mpr (by omega)) h
  · intro ti hti hne
    rw [Finset.mem_range] at hti
    refine Finset.sum_eq_zero (fun tj htj => Finset.sum_eq_zero (fun tk _ =>
      Finset.sum_eq_zero (fun i2 hi2 =>
        Finset.sum_eq_zero (fun k2 _ => Finset.sum_eq_zero (fun t ht => ?_)))))
    rw [Finset.mem_range] at htj hi2 ht
    rw [if_neg (by omega), if_neg (by omega), add_zero]
  · intro h
    exact absurd (Finset.mem_range.mpr (by omega)) h

/-- After `cinitMatrix` every cell `(i, j)` with `i, j < N` holds `0` in `res`, `2` in `mul1`
and `4` in `mul2`. -/
theorem cinitMatrix_cell (g : cmatrix.Globals) (i j : ℕ) (hi : i < cmatrix.N)
    (hj : j < cmatrix.N) :
    (cmatrix.cinitMatrix g).res (i * cmatrix.N + j) = 0
      ∧ (cmatrix.cinitMatrix g).mul1 (i * cmatrix.N + j) = 2
      ∧ (cmatrix.cinitMatrix g).mul2 (i * cmatrix.N + j) = 4 := by
  unfold cmatrix.cinitMatrix
  simp only []
  exact ⟨forLoop_store_rows cmatrix.N (fun _ _ => 0) cmatrix.N 0 g.res i j (Nat.zero_le _)
      (by omega) hj,
    forLoop_store_rows cmatrix.N (fun _ _ => 2) cmatrix.N 0 g.mul1 i j (Nat.zero_le _)
      (by omega) hj,
    forLoop_store_rows cmatrix.N (fun _ _ => 4) cmatrix.N 0 g.mul2 i j (Nat.zero_le _)
      (by omega) hj⟩

/-! ## Claims about the scalar tile kernel -/

/-- C1 (as amended): for every `block_size ≤ N` and all buffer contents, after
`kernelMulMatrix_BL_NV(res, a, b, block_size)` every tile cell `i, j < block_size` holds
`old_res[i*N + j] + Σ_{k < block_size} a[i*N + k] * b[k*N + j]`. -/
theorem kernelMulMatrix_BL_NV_tile (m_res m_mul1 m_mul2 : Buf) (block_size : ℕ)
    (hbs : block_size ≤ N) (i j : ℕ) (hi : i < block_size) (hj : j < block_size) :
    kernelMulMatrix_BL_NV m_res m_mul1 m_mul2 block_size (i * N + j)
      = m_res (i * N + j)
        + ∑ k ∈ Finset.range block_size, m_mul1 (i * N + k) * m_mul2 (k * N + j) := by
  rw [kernelMulMatrix_BL_NV_apply]
  congr 1
  have hN : block_size ≤ 256 := hbs
  rw [Finset.sum_eq_single i]
  · refine Finset.sum_congr rfl (fun k _ => ?_)
    rw [Finset.sum_eq_single j]
    · simp
    · intro j' _ hne
      rw [if_neg]
      simp only [N]; omega
    · intro h; exact absurd (Finset.mem_range.mpr hj) h
  · intro i' _ hne
    refine Finset.sum_eq_zero (fun k _ => Finset.sum_eq_zero (fun j' hj' => ?_))
    rw [if_neg]
    have := Finset.mem_range.mp hj'
    simp only [N]; omega
  · intro h; exact absurd (Finset.mem_range.mpr hi) h

/-- C1 witness: a 2x2 tile with `A` filled with 2, `B` filled with 4 and `C` zero gives 16 in
each of the four tile cells. -/
theorem kernelMulMatrix_BL_NV_tile_witness :
    kernelMulMatrix_BL_NV (fun _ => 0) (fun _ => 2) (fun _ => 4) 2 (0 * N + 0) = 16
      ∧ kernelMulMatrix_BL_NV (fun _ => 0) (fun _ => 2) (fun _ => 4) 2 (0 * N + 1) = 16
      ∧ kernelMulMatrix_BL_NV (fun _ => 0) (fun _ => 2) (fun _ => 4) 2 (1 * N + 0) = 16
      ∧ kernelMulMatrix_BL_NV (fun _ => 0) (fun _ => 2) (fun _ => 4) 2 (1 * N + 1) = 16 := by
  have h := kernelMulMatrix_BL_NV_tile (fun _ => 0) (fun _ => 2) (fun _ => 4) 2 (by decide)
  rw [h 0 0 (by decide) (by decide), h 0 1 (by decide) (by decide),
    h 1 0 (by decide) (by decide), h 1 1 (by decide) (by decide)]
  norm_num [Finset.sum_range_succ]

/-- C1 counterexample: with `block_size = 257 > N` the tile rows overlap.  For `a` zero except
`a[0] = 1` and `b` zero except `b[256] = 1`, the cell `(i, j) = (1, 0)` (offset 256, which is also
the cell `(0, 256)`) ends as `1`, whereas the claimed value
`old_res[1*N + 0] + Σ_{k < 257} a[1*N + k] * b[k*N + 0]` is `0`. -/
theorem kernelMulMatrix_BL_NV_overlap_counterexample :
    kernelMulMatrix_BL_NV (fun _ => 0) (fun q => if q = 0 then 1 else 0)
        (fun q => if q = 256 then 1 else 0) 257 (1 * N + 0) = 1
    ∧ (fun _ => (0 : ℚ)) (1 * N + 0)
        + ∑ k ∈ Finset.range 257, (fun q => if q = 0 then (1 : ℚ) else 0) (1 * N + k)
            * (fun q => if q = 256 then (1 : ℚ) else 0) (k * N + 0) = 0 := by
  constructor
  · rw [kernelMulMatrix_BL_NV_apply]
    rw [Finset.sum_eq_single 0]
    · rw [Finset.sum_eq_single 0]
      · rw [Finset.sum_eq_single 256]
        · norm_num [N]
        · intro j _ hne
          simp only [N]
          split_ifs <;> first | rfl | omega
        · intro h; exact absurd (Finset.mem_range.mpr (by decide)) h
      · intro k _ hne
        refine Finset.sum_eq_zero (fun j _ => ?_)
        simp only [N]
        split_ifs <;> first | rfl | omega | norm_num
      · intro h; exact absurd (Finset.mem_range.mpr (by decide)) h
    · intro i _ hne
      refine Finset.sum_eq_zero (fun k _ => Finset.sum_eq_zero (fun j _ => ?_))
      simp only [N]
      split_ifs <;> first | rfl | omega | norm_num
    · intro h; exact absurd (Finset.mem_range.mpr (by decide)) h
  · simp only [zero_add]
    refine Finset.sum_eq_zero (fun k _ => ?_)
    simp only [N]
    split_ifs <;> first | rfl | omega | norm_num

/-- C4: if `bt[j*N + k] = b[k*N + j]` for all `j, k < block_size`, then
`kernelMulMatrix_TP_BL_NV(res, a, bt, block_size)` leaves the result buffer in the same state as
`kernelMulMatrix_BL_NV(res, a, b, block_size)`, for every block size and all buffers. -/
theorem kernelMulMatrix_TP_BL_NV_eq_BL_NV (m_res a b bt : Buf) (block_size : ℕ)
    (hbt : ∀ j k, j < block_size → k < block_size → bt (j * N + k) = b (k * N + j)) :
    kernelMulMatrix_TP_BL_NV m_res a bt block_size
      = kernelMulMatrix_BL_NV m_res a b block_size := by
  funext p
  rw [kernelMulMatrix_TP_BL_NV_apply, kernelMulMatrix_BL_NV_apply]
  congr 1
  refine Finset.sum_congr rfl (fun i _ => ?_)
  rw [Finset.sum_comm]
  refine Finset.sum_congr rfl (fun j hj => ?_)
  split_ifs with h
  · refine Finset.sum_congr rfl (fun k hk => ?_)
    rw [hbt j k (Finset.mem_range.mp hj) (Finset.mem_range.mp hk)]
  · simp

/-- C4 witness: a 2x2 tile with `b[k*N + j] = k*N + j` and `bt` its element transpose. -/
theorem kernelMulMatrix_TP_BL_NV_eq_BL_NV_witness :
    kernelMulMatrix_TP_BL_NV (fun _ => 0) (fun q => (q : ℚ))
        (fun q => (((q % N) * N + q / N : ℕ) : ℚ)) 2
      = kernelMulMatrix_BL_NV (fun _ => 0) (fun q => (q : ℚ)) (fun q => (q : ℚ)) 2 :=
  kernelMulMatrix_TP_BL_NV_eq_BL_NV (fun _ => 0) (fun q => (q : ℚ)) (fun q => (q : ℚ))
    (fun q => (((q % N) * N + q / N : ℕ) : ℚ)) 2 (by
      intro j k hj hk
      have hj' : j = 0 ∨ j = 1 := by omega
      have hk' : k = 0 ∨ k = 1 := by omega
      rcases hj' with rfl | rfl <;> rcases hk' with rfl | rfl <;> norm_num [N])

/-- C10: starting from a result tile that is all zero, two calls of `kernelMulMatrix_BL_NV` on
the same operands leave every tile cell equal to twice its value after one call, for every
block size. -/
theorem kernelMulMatrix_BL_NV_twice (m_res m_mul1 m_mul2 : Buf) (block_size : ℕ)
    (hzero : ∀ i j, i < block_size → j < block_size → m_res (i * N + j) = 0)
    (i j : ℕ) (hi : i < block_size) (hj : j < block_size) :
    kernelMulMatrix_BL_NV (kernelMulMatrix_BL_NV m_res m_mul1 m_mul2 block_size)
        m_mul1 m_mul2 block_size (i * N + j)
      = 2 * kernelMulMatrix_BL_NV m_res m_mul1 m_mul2 block_size (i * N + j) := by
  rw [kernelMulMatrix_BL_NV_apply, kernelMulMatrix_BL_NV_apply, hzero i j hi hj]
  ring

/-- C10 witness: the 2x2 tile with `A` filled with 2 and `B` filled with 4, cell `(1, 1)`. -/
theorem kernelMulMatrix_BL_NV_twice_witness :
    kernelMulMatrix_BL_NV (kernelMulMatrix_BL_NV (fun _ => 0) (fun _ => 2) (fun _ => 4) 2)
        (fun _ => 2) (fun _ => 4) 2 (1 * N + 1)
      = 2 * kernelMulMatrix_BL_NV (fun _ => 0) (fun _ => 2) (fun _ => 4) 2 (1 * N + 1) :=
  kernelMulMatrix_BL_NV_twice (fun _ => 0) (fun _ => 2) (fun _ => 4) 2 (fun _ _ _ _ => rfl) 1 1
    (by decide) (by decide)

/-- C5: for every `block_size` that is a multiple of 4 and all buffers,
`kernelMulMatrix_VT_BL_TP(res, a, bt, block_size)` leaves the result buffer in the same state as
`kernelMulMatrix_TP_BL_NV(res, a, bt, block_size)`, and its result is determined by the operand
cells `a[i*N + k]` and `bt[j*N + k]` with `i, j, k < block_size` alone: changing any other
operand cell does not change the outcome (no other operand cell is read). -/
theorem kernelMulMatrix_VT_BL_TP_eq_TP_BL_NV (m_res a bt : Buf) (block_size : ℕ)
    (h4 : 4 ∣ block_size) :
    kernelMulMatrix_VT_BL_TP m_res a bt block_size
        = kernelMulMatrix_TP_BL_NV m_res a bt block_size
    ∧ ∀ a' bt' : Buf,
        (∀ i k, i < block_size → k < block_size → a' (i * N + k) = a (i * N + k)) →
        (∀ j k, j < block_size → k < block_size → bt' (j * N + k) = bt (j * N + k)) →
        kernelMulMatrix_VT_BL_TP m_res a' bt' block_size
          = kernelMulMatrix_VT_BL_TP m_res a bt block_size := by
  obtain ⟨m, rfl⟩ : ∃ m, block_size = m * 4 := by
    obtain ⟨m, hm⟩ := h4
    exact ⟨m, by omega⟩
  have key : ∀ x y : Buf, kernelMulMatrix_VT_BL_TP m_res x y (m * 4)
      = kernelMulMatrix_TP_BL_NV m_res x y (m * 4) := by
    intro x y
    unfold kernelMulMatrix_VT_BL_TP kernelMulMatrix_TP_BL_NV
    simp only [dot_VT_eq_dot_NV]
  refine ⟨key a bt, ?_⟩
  intro a' bt' ha hb
  rw [key, key]
  funext p
  rw [kernelMulMatrix_TP_BL_NV_apply, kernelMulMatrix_TP_BL_NV_apply]
  congr 1
  refine Finset.sum_congr rfl (fun i hi => Finset.sum_congr rfl (fun j hj => ?_))
  split_ifs with h
  · refine Finset.sum_congr rfl (fun k hk => ?_)
    rw [ha i k (Finset.mem_range.mp hi) (Finset.mem_range.mp hk),
      hb j k (Finset.mem_range.mp hj) (Finset.mem_range.mp hk)]
  · rfl

/-- C3: at `block_size = 8`, for all contents of the result, `A` and `B` buffers,
`mulMatrix_128VL_BL(res, a, b, 8)` and `mulMatrix_256VL_BL(res, a, b, 8)` each leave the result
buffer in exactly the same state as `kernelMulMatrix_BL_NV(res, a, b, 8)`. -/
theorem mulMatrix_VL_BL_eq_BL_NV (m_res a b : Buf) :
    mulMatrix_128VL_BL m_res a b 8 = kernelMulMatrix_BL_NV m_res a b 8
    ∧ mulMatrix_256VL_BL m_res a b 8 = kernelMulMatrix_BL_NV m_res a b 8 := by
  constructor
  · funext p
    rw [mulMatrix_128VL_BL_apply, kernelMulMatrix_BL_NV_apply_dot]
  · funext p
    rw [mulMatrix_256VL_BL_apply, kernelMulMatrix_BL_NV_apply_dot]

/-- C5 witness: `block_size = 4`, zero result buffer, `a[q] = q` and `bt[q] = q + 1`. -/
theorem kernelMulMatrix_VT_BL_TP_eq_TP_BL_NV_witness :
    kernelMulMatrix_VT_BL_TP (fun _ => 0) (fun q : ℕ => (q : ℚ)) (fun q : ℕ => (q : ℚ) + 1) 4
        = kernelMulMatrix_TP_BL_NV (fun _ => 0) (fun q : ℕ => (q : ℚ))
            (fun q : ℕ => (q : ℚ) + 1) 4
    ∧ ∀ a' bt' : Buf,
        (∀ i k, i < 4 → k < 4 → a' (i * N + k) = (fun q : ℕ => (q : ℚ)) (i * N + k)) →
        (∀ j k, j < 4 → k < 4 → bt' (j * N + k) = (fun q : ℕ => (q : ℚ) + 1) (j * N + k)) →
        kernelMulMatrix_VT_BL_TP (fun _ => 0) a' bt' 4
          = kernelMulMatrix_VT_BL_TP (fun _ => 0) (fun q : ℕ => (q : ℚ))
              (fun q : ℕ => (q : ℚ) + 1) 4 :=
  kernelMulMatrix_VT_BL_TP_eq_TP_BL_NV (fun _ => 0) (fun q : ℕ => (q : ℚ))
    (fun q : ℕ => (q : ℚ) + 1) 4 (by decide)

/-! ## Claims about the matrix container -/

/-- C6 (the code at a non-square input): for the 2x3 matrix `M = [[0, 1, 2], [3, 4, 5]]`,
`transpose(M)` has 3 rows and 2 columns as claimed, but its buffer is `[0, 2, 4, 1, 3, 5]`
instead of the element transpose `[0, 3, 1, 4, 2, 5]`: the element `T[0, 1]`, read at
`0 * T.col() + 1`, is `2`, whereas `M[1, 0]`, read at `1 * M.col() + 0`, is `3`. -/
theorem transpose_matrix2x3 :
    (transpose matrix2x3).row = 3 ∧ (transpose matrix2x3).col = 2
      ∧ (transpose matrix2x3).matrix = #[0, 2, 4, 1, 3, 5]
      ∧ (transpose matrix2x3).get (0 * (transpose matrix2x3).col + 1) = 2
      ∧ matrix2x3.get (1 * matrix2x3.col + 0) = 3 := by
  decide

/-- C7: for every matrix `M` (of any shape, its buffer holding `row * col` cells as the class
guarantees), `transpose(transpose(M))` has the same row count, the same column count and the
same flat buffer contents as `M`, and `transpose(transpose(M)) == M` holds under `operator==`. -/
theorem transpose_transpose (m : Matrix) (hwf : m.WF) :
    ((transpose (transpose m)).row = m.row ∧ (transpose (transpose m)).col = m.col
        ∧ (transpose (transpose m)).matrix = m.matrix)
      ∧ operator_eq (transpose (transpose m)) m = true := by
  obtain ⟨h1, h2, h3, h4⟩ := transpose_spec m
  obtain ⟨g1, g2, g3, g4⟩ := transpose_spec (transpose m)
  simp only [h1, h2] at g1 g2 g3 g4
  have hbuf : (transpose (transpose m)).matrix = m.matrix := by
    have hsz : (transpose (transpose m)).matrix.size = m.matrix.size := by
      rw [g3, hwf]
    refine Array.ext _ _ hsz ?_
    intro q hq1 hq2
    have hq : q < m.row_cnt * m.col_cnt := by rw [← hwf]; exact hq2
    have hr : 0 < m.row_cnt := by
      rcases Nat.eq_zero_or_pos m.row_cnt with h0 | h0
      · rw [h0, Nat.zero_mul] at hq; omega
      · exact h0
    have hi : q / m.row_cnt < m.col_cnt := by
      rw [Nat.div_lt_iff_lt_mul hr, Nat.mul_comm]; exact hq
    have hj : q % m.row_cnt < m.row_cnt := Nat.mod_lt _ hr
    have hsplit : q / m.row_cnt * m.row_cnt + q % m.row_cnt = q := by
      rw [Nat.mul_comm]; exact Nat.div_add_mod q m.row_cnt
    have e1 := g4 (q / m.row_cnt) (q % m.row_cnt) hi hj
    have e2 := h4 (q % m.row_cnt) (q / m.row_cnt) hj hi
    rw [e2, hsplit] at e1
    unfold Matrix.get at e1
    simp only [Array.getD_eq_get?, Array.getElem?_eq_getElem hq1,
      Array.getElem?_eq_getElem hq2, Option.getD_some] at e1
    exact e1
  have hrow : (transpose (transpose m)).row_cnt = m.row_cnt := g1
  have hcol : (transpose (transpose m)).col_cnt = m.col_cnt := g2
  have heq : transpose (transpose m) = m := by
    cases hm : transpose (transpose m) with
    | mk r c buf =>
      cases m with
      | mk r' c' buf' =>
        rw [hm] at hrow hcol hbuf
        simp only at hrow hcol hbuf
        rw [hrow, hcol, hbuf]
  refine ⟨⟨hrow, hcol, hbuf⟩, ?_⟩
  rw [heq]
  exact operator_eq_refl m

/-- C7 witness: the 2x3 matrix `[[0, 1, 2], [3, 4, 5]]`. -/
theorem transpose_transpose_witness :
    ((transpose (transpose matrix2x3)).row = matrix2x3.row
        ∧ (transpose (transpose matrix2x3)).col = matrix2x3.col
        ∧ (transpose (transpose matrix2x3)).matrix = matrix2x3.matrix)
      ∧ operator_eq (transpose (transpose matrix2x3)) matrix2x3 = true :=
  transpose_transpose matrix2x3 (by decide)

/-- C8: `operator==(s1, s2)` is `true` if and only if the row counts match, the column counts
match, and every index `idx < row * col` has `|s1[idx] - s2[idx]| ≤ DBL_EPSILON`; in particular
it is `false` whenever the dimensions differ, for example for a 2x3 against a 3x2 matrix with
the same number of cells. -/
theorem operator_eq_spec (s1 s2 : Matrix) :
    (operator_eq s1 s2 = true
        ↔ s1.row = s2.row ∧ s1.col = s2.col
          ∧ ∀ idx, idx < s1.row * s1.col → |s1.get idx - s2.get idx| ≤ DBL_EPSILON)
      ∧ ((s1.row ≠ s2.row ∨ s1.col ≠ s2.col) → operator_eq s1 s2 = false)
      ∧ operator_eq (Matrix.new 2 3) (Matrix.new 3 2) = false := by
  refine ⟨operator_eq_iff s1 s2, ?_, ?_⟩
  · intro h
    rw [← Bool.not_eq_true, operator_eq_iff]
    rintro ⟨hr, hc, _⟩
    rcases h with h | h
    · exact h hr
    · exact h hc
  · rw [← Bool.not_eq_true, operator_eq_iff]
    rintro ⟨hr, _, _⟩
    exact absurd hr (by decide)

/-- C9: `operator==(s, s)` is `true` for every matrix `s`, and
`operator==(s1, s2) = operator==(s2, s1)` for all matrices `s1`, `s2`. -/
theorem operator_eq_refl_symm (s s1 s2 : Matrix) :
    operator_eq s s = true ∧ operator_eq s1 s2 = operator_eq s2 s1 := by
  refine ⟨operator_eq_refl s, ?_⟩
  have key : ∀ a b : Matrix, operator_eq a b = true → operator_eq b a = true := by
    intro a b h
    rw [operator_eq_iff] at h ⊢
    obtain ⟨hr, hc, hall⟩ := h
    refine ⟨hr.symm, hc.symm, fun idx hidx => ?_⟩
    rw [abs_sub_comm]
    exact hall idx (by rw [hr, hc]; exact hidx)
  cases h12 : operator_eq s1 s2 with
  | true => exact (key s1 s2 h12).symm
  | false =>
    cases h21 : operator_eq s2 s1 with
    | true => rw [key s2 s1 h21] at h12; exact absurd h12 (by decide)
    | false => rfl

/-! ## Claims about the fixed-size driver -/

/-- C2: for all initial contents of the 1000x1000 arrays `res`, `mul1`, `mul2`,
`cmultiplyMatrix()` returns `0`, leaves `mul1` and `mul2` as they were, and leaves in every cell
`i, j < 1000` the value `old_res[i][j] + Σ_{k < 1000} mul1[i][k] * mul2[k][j]`. -/
theorem cmultiplyMatrix_spec (g : cmatrix.Globals) :
    (cmatrix.cmultiplyMatrix g).1 = 0
      ∧ (cmatrix.cmultiplyMatrix g).2.mul1 = g.mul1
      ∧ (cmatrix.cmultiplyMatrix g).2.mul2 = g.mul2
      ∧ ∀ i j, i < cmatrix.N → j < cmatrix.N →
          (cmatrix.cmultiplyMatrix g).2.res (i * cmatrix.N + j)
            = g.res (i * cmatrix.N + j)
              + ∑ k ∈ Finset.range cmatrix.N,
                  g.mul1 (i * cmatrix.N + k) * g.mul2 (k * cmatrix.N + j) := by
  have h1 : ∀ R : Buf, ({ g with res := R } : cmatrix.Globals).mul1 = g.mul1 := fun _ => rfl
  have h2 : ∀ R : Buf, ({ g with res := R } : cmatrix.Globals).mul2 = g.mul2 := fun _ => rfl
  exact ⟨rfl, h1 _, h2 _, fun i j hi hj => cmultiplyMatrix_res_cell g i j hi hj⟩

/-- C2 witness: after `cinitMatrix` (whatever the arrays held before), `cmultiplyMatrix` leaves
`8000` in the cells `(0, 0)` and `(999, 999)`. -/
theorem cmultiplyMatrix_spec_witness :
    (cmatrix.cmultiplyMatrix (cmatrix.cinitMatrix
        { res := fun _ => 7, mul1 := fun _ => 7, mul2 := fun _ => 7 })).2.res
          (0 * cmatrix.N + 0) = 8000
      ∧ (cmatrix.cmultiplyMatrix (cmatrix.cinitMatrix
        { res := fun _ => 7, mul1 := fun _ => 7, mul2 := fun _ => 7 })).2.res
          (999 * cmatrix.N + 999) = 8000 := by
  have key : ∀ i j, i < cmatrix.N → j < cmatrix.N →
      (cmatrix.cmultiplyMatrix (cmatrix.cinitMatrix
        { res := fun _ => 7, mul1 := fun _ => 7, mul2 := fun _ => 7 })).2.res
          (i * cmatrix.N + j) = 8000 := by
    intro i j hi hj
    rw [(cmultiplyMatrix_spec _).2.2.2 i j hi hj, (cinitMatrix_cell _ i j hi hj).1, zero_add]
    rw [Finset.sum_congr rfl (fun k hk => by
      rw [(cinitMatrix_cell _ i k hi (Finset.mem_range.mp hk)).2.1,
        (cinitMatrix_cell _ k j (Finset.mem_range.mp hk) hj).2.2])]
    rw [Finset.sum_const, Finset.card_range]
    norm_num [cmatrix.N]
  exact ⟨key 0 0 (by decide) (by decide), key 999 999 (by decide) (by decide)⟩

/-! ## Further claims about the matrix container -/

/-- C11: `Matrix(row_cnt, col_cnt)` has `row() = row_cnt`, `col() = col_cnt`,
`size() = row_cnt * col_cnt` equal to the length of the buffer, and every element `0`; `Matrix()`
is the same with `row() = col() = 256`; and a write `m[idx] = v` to an in-range element changes
neither `row()`, `col()`, `size()` nor the length of the buffer. -/
theorem Matrix_construction (row_cnt col_cnt : ℕ) (m : Matrix) (idx : ℕ) (v : ℚ) :
    ((Matrix.new row_cnt col_cnt).row = row_cnt ∧ (Matrix.new row_cnt col_cnt).col = col_cnt
        ∧ (Matrix.new row_cnt col_cnt).size = row_cnt * col_cnt
        ∧ (Matrix.new row_cnt col_cnt).matrix.size = (Matrix.new row_cnt col_cnt).size
        ∧ ∀ i, i < row_cnt * col_cnt → (Matrix.new row_cnt col_cnt).matrix[i]? = some 0)
      ∧ (Matrix.newDefault.row = 256 ∧ Matrix.newDefault.col = 256
        ∧ Matrix.newDefault.size = 256 * 256
        ∧ Matrix.newDefault.matrix.size = Matrix.newDefault.size
        ∧ ∀ i, i < 256 * 256 → Matrix.newDefault.matrix[i]? = some 0)
      ∧ (idx < m.matrix.size →
          (m.set idx v).row = m.row ∧ (m.set idx v).col = m.col
            ∧ (m.set idx v).size = m.size ∧ (m.set idx v).matrix.size = m.matrix.size) := by
  refine ⟨⟨rfl, rfl, Nat.mul_comm _ _, ?_, fun i hi => ?_⟩,
    ⟨rfl, rfl, rfl, ?_, fun i hi => ?_⟩, fun _ => ⟨rfl, rfl, rfl, ?_⟩⟩
  · simp only [Matrix.new, Matrix.size, Array.size_mkArray, Nat.mul_comm]
  · simp only [Matrix.new, Array.getElem?_mkArray, if_pos hi]
  · simp only [Matrix.newDefault, Matrix.size, Array.size_mkArray]
  · have hi' : i < N * N := hi
    simp only [Matrix.newDefault, Array.getElem?_mkArray, if_pos hi']
  · simp only [Matrix.set, Array.size_setD]

/-- C11 witness: a write to cell 4 of the 2x3 matrix `[[0, 1, 2], [3, 4, 5]]`. -/
theorem Matrix_construction_witness :
    (matrix2x3.set 4 7).row = matrix2x3.row ∧ (matrix2x3.set 4 7).col = matrix2x3.col
      ∧ (matrix2x3.set 4 7).size = matrix2x3.size
      ∧ (matrix2x3.set 4 7).matrix.size = matrix2x3.matrix.size :=
  (Matrix_construction 2 3 matrix2x3 4 7).2.2 (by decide)

/-- C16: for every `n x n` matrix `M`, `transpose(M)` is `n x n` (with a buffer of `n * n`
cells) and for all `i, j < n` its element at flat index `i * n + j` is the element of `M` at flat
index `j * n + i`. -/
theorem transpose_square (m : Matrix) (n : ℕ) (hrow : m.row = n) (hcol : m.col = n) :
    (transpose m).row = n ∧ (transpose m).col = n ∧ (transpose m).matrix.size = n * n
      ∧ ∀ i j, i < n → j < n → (transpose m).get (i * n + j) = m.get (j * n + i) := by
  obtain ⟨h1, h2, h3, h4⟩ := transpose_spec m
  have hr : m.row_cnt = n := hrow
  have hc : m.col_cnt = n := hcol
  rw [hr, hc] at h3 h4
  exact ⟨h1.trans hc, h2.trans hr, h3, h4⟩

/-- C16 witness: the 2x2 matrix `[[1, 2], [3, 4]]`, whose transpose holds `3` at flat index
`0 * 2 + 1`. -/
theorem transpose_square_witness :
    (transpose { row_cnt := 2, col_cnt := 2, matrix := #[1, 2, 3, 4] }).get (0 * 2 + 1)
      = Matrix.get { row_cnt := 2, col_cnt := 2, matrix := #[1, 2, 3, 4] } (1 * 2 + 0) :=
  (transpose_square { row_cnt := 2, col_cnt := 2, matrix := #[1, 2, 3, 4] } 2 rfl rfl).2.2.2 0 1
    (by decide) (by decide)

/-- C18: `operator==` is not transitive: the 1x1 matrices `A = [0]`, `B = [DBL_EPSILON]` and
`C = [2 * DBL_EPSILON]` have `A == B` and `B == C` but not `A == C`. -/
theorem operator_eq_not_transitive :
    operator_eq { row_cnt := 1, col_cnt := 1, matrix := #[0] }
        { row_cnt := 1, col_cnt := 1, matrix := #[DBL_EPSILON] } = true
      ∧ operator_eq { row_cnt := 1, col_cnt := 1, matrix := #[DBL_EPSILON] }
        { row_cnt := 1, col_cnt := 1, matrix := #[2 * DBL_EPSILON] } = true
      ∧ operator_eq { row_cnt := 1, col_cnt := 1, matrix := #[0] }
        { row_cnt := 1, col_cnt := 1, matrix := #[2 * DBL_EPSILON] } = false := by
  have hpos : 0 < DBL_EPSILON := by unfold DBL_EPSILON; positivity
  have hget : ∀ x : ℚ, Matrix.get { row_cnt := 1, col_cnt := 1, matrix := #[x] } 0 = x :=
    fun _ => rfl
  refine ⟨?_, ?_, ?_⟩
  · rw [operator_eq_iff]
    refine ⟨rfl, rfl, fun idx hidx => ?_⟩
    have h0 : idx = 0 := by
      have : idx < 1 * 1 := hidx
      omega
    subst h0
    rw [hget, hget, zero_sub, abs_neg, abs_of_pos hpos]
  · rw [operator_eq_iff]
    refine ⟨rfl, rfl, fun idx hidx => ?_⟩
    have h0 : idx = 0 := by
      have : idx < 1 * 1 := hidx
      omega
    subst h0
    rw [hget, hget]
    have : DBL_EPSILON - 2 * DBL_EPSILON = -DBL_EPSILON := by ring
    rw [this, abs_neg, abs_of_pos hpos]
  · rw [← Bool.not_eq_true, operator_eq_iff]
    rintro ⟨_, _, h⟩
    have h0 := h 0 (by decide)
    rw [hget, hget, zero_sub, abs_neg, abs_of_pos (by linarith)] at h0
    linarith

/-- C12 (the code at a 2x2 input): with the generator `fun(row, col) = 10 * row + col`,
`initAlignedVector(2, 2, fun)` returns `[0, 10, 1, 11]`: the element at the row-major index
`0 * 2 + 1` is `10 = fun(1, 0)`, whereas the claim requires `fun(0, 1) = 1` there.  In general the
2x2 buffer is `[fun(0,0), fun(1,0), fun(0,1), fun(1,1)]`. -/
theorem initAlignedVector_2x2 :
    initAlignedVector 2 2 (fun row col => 10 * (row : ℚ) + col) = some #[0, 10, 1, 11]
      ∧ ∀ gen : ℕ → ℕ → ℚ,
          initAlignedVector 2 2 gen = some #[gen 0 0, gen 1 0, gen 0 1, gen 1 1] := by
  have h : ∀ gen : ℕ → ℕ → ℚ,
      initAlignedVector 2 2 gen = some #[gen 0 0, gen 1 0, gen 0 1, gen 1 1] := fun _ => rfl
  refine ⟨?_, h⟩
  rw [h]
  norm_num

/-- C17 (the code at non-square inputs): `initAlignedVector(1, 2, fun)` stores to index
`1 * 2 + 0 = 2` of a buffer of length 2, outside the buffer; and `initAlignedVector(3, 2, fun)`
stores to index 2 twice (as `0 * 2 + 2` and as `1 * 2 + 0`) and never to index 5, which keeps the
`0` of `resize` when every generated value is `1`. -/
theorem initAlignedVector_nonsquare :
    (∀ gen : ℕ → ℕ → ℚ, initAlignedVector 1 2 gen = none)
      ∧ initAlignedVector 3 2 (fun _ _ => 1) = some #[1, 1, 1, 1, 1, 0]
      ∧ ∀ gen : ℕ → ℕ → ℚ,
          initAlignedVector 3 2 gen = some #[gen 0 0, gen 1 0, gen 0 1, gen 1 1, gen 2 1, 0] :=
  ⟨fun _ => rfl, by decide, fun _ => rfl⟩

/-! ## Frame and column claims about the kernels -/

/-- For a block size that is a multiple of four the vectorised transposed-operand kernel and
the scalar transposed-operand kernel produce the same buffer. -/
theorem kernelMulMatrix_VT_BL_TP_mul_four (m_res a bt : Buf) (m : ℕ) :
    kernelMulMatrix_VT_BL_TP m_res a bt (m * 4) = kernelMulMatrix_TP_BL_NV m_res a bt (m * 4) := by
  unfold kernelMulMatrix_VT_BL_TP kernelMulMatrix_TP_BL_NV
  simp only [dot_VT_eq_dot_NV]

/-- C13: a result cell whose index is not of the form `i * N + j` with `i, j < block_size` is
left unchanged by `kernelMulMatrix_BL_NV` and `kernelMulMatrix_TP_BL_NV` (any block size), by
`kernelMulMatrix_VT_BL_TP` (block size divisible by 4) and by `mulMatrix_128VL_BL` and
`mulMatrix_256VL_BL` (block size 8).  The operand buffers are arguments that the kernels only
read: the result buffer is the only buffer a kernel returns. -/
theorem kernels_frame (m_res a b : Buf) (block_size p : ℕ)
    (hp : ∀ i j, i < block_size → j < block_size → p ≠ i * N + j) :
    kernelMulMatrix_BL_NV m_res a b block_size p = m_res p
      ∧ kernelMulMatrix_TP_BL_NV m_res a b block_size p = m_res p
      ∧ (4 ∣ block_size → kernelMulMatrix_VT_BL_TP m_res a b block_size p = m_res p)
      ∧ (block_size = 8 → mulMatrix_128VL_BL m_res a b block_size p = m_res p)
      ∧ (block_size = 8 → mulMatrix_256VL_BL m_res a b block_size p = m_res p) := by
  have hTP : kernelMulMatrix_TP_BL_NV m_res a b block_size p = m_res p := by
    rw [kernelMulMatrix_TP_BL_NV_apply]
    refine add_right_eq_self.mpr (Finset.sum_eq_zero (fun i hi => Finset.sum_eq_zero
      (fun j hj => ?_)))
    exact if_neg (hp i j (Finset.mem_range.mp hi) (Finset.mem_range.mp hj))
  refine ⟨?_, hTP, ?_, ?_, ?_⟩
  · rw [kernelMulMatrix_BL_NV_apply_dot]
    refine add_right_eq_self.mpr (Finset.sum_eq_zero (fun i hi => Finset.sum_eq_zero
      (fun j hj => ?_)))
    exact if_neg (hp i j (Finset.mem_range.mp hi) (Finset.mem_range.mp hj))
  · intro h4
    obtain ⟨m, hm⟩ := h4
    have hm' : block_size = m * 4 := by omega
    rw [hm'] at hTP ⊢
    rw [kernelMulMatrix_VT_BL_TP_mul_four]
    exact hTP
  · intro h8
    subst h8
    rw [mulMatrix_128VL_BL_apply]
    refine add_right_eq_self.mpr (Finset.sum_eq_zero (fun i hi => Finset.sum_eq_zero
      (fun j hj => ?_)))
    exact if_neg (hp i j (Finset.mem_range.mp hi) (Finset.mem_range.mp hj))
  · intro h8
    subst h8
    rw [mulMatrix_256VL_BL_apply]
    refine add_right_eq_self.mpr (Finset.sum_eq_zero (fun i hi => Finset.sum_eq_zero
      (fun j hj => ?_)))
    exact if_neg (hp i j (Finset.mem_range.mp hi) (Finset.mem_range.mp hj))

/-- C13 witness: block size 8 and the cell at offset 8 (row 0, column 8), just right of the
tile. -/
theorem kernels_frame_witness :
    kernelMulMatrix_BL_NV (fun _ => 5) (fun _ => 2) (fun _ => 4) 8 8 = 5
      ∧ kernelMulMatrix_TP_BL_NV (fun _ => 5) (fun _ => 2) (fun _ => 4) 8 8 = 5
      ∧ kernelMulMatrix_VT_BL_TP (fun _ => 5) (fun _ => 2) (fun _ => 4) 8 8 = 5
      ∧ mulMatrix_128VL_BL (fun _ => 5) (fun _ => 2) (fun _ => 4) 8 8 = 5
      ∧ mulMatrix_256VL_BL (fun _ => 5) (fun _ => 2) (fun _ => 4) 8 8 = 5 := by
  have h := kernels_frame (fun _ => 5) (fun _ => 2) (fun _ => 4) 8 8 (by
    intro i j _ hj
    simp only [N]
    omega)
  exact ⟨h.1, h.2.1, h.2.2.1 (by decide), h.2.2.2.1 rfl, h.2.2.2.2 rfl⟩

/-- C19: for every block size and all buffers, after `mulMatrix_256VL_BL(res, a, b, block_size)`
every cell with `i < block_size` and `j < 8` holds
`old_res[i*N + j] + Σ_{k < block_size} a[i*N + k] * b[k*N + j]`, and every other result cell is
unchanged.  Hence no column `j` with `8 ≤ j < N` receives a contribution, whatever the block
size; and for `block_size < 8` the columns `block_size ≤ j < 8`, which lie outside the tile, are
accumulated into: with `block_size = 1`, operands all `1` and a zero result buffer, the cell at
offset 1 ends as `1`. -/
theorem mulMatrix_256VL_BL_eight_columns (m_res a b : Buf) (block_size : ℕ) :
    (∀ i j, i < block_size → j < 8 →
        mulMatrix_256VL_BL m_res a b block_size (i * N + j)
          = m_res (i * N + j) + ∑ k ∈ Finset.range block_size, a (i * N + k) * b (k * N + j))
      ∧ (∀ p, (∀ i j, i < block_size → j < 8 → p ≠ i * N + j) →
          mulMatrix_256VL_BL m_res a b block_size p = m_res p)
      ∧ (∀ i j, 8 ≤ j → j < N →
          mulMatrix_256VL_BL m_res a b block_size (i * N + j) = m_res (i * N + j))
      ∧ (block_size < 8 → ∀ i j, i < block_size → block_size ≤ j → j < 8 →
          (∀ i' j', i' < block_size → j' < block_size → i * N + j ≠ i' * N + j')
            ∧ mulMatrix_256VL_BL m_res a b block_size (i * N + j)
              = m_res (i * N + j)
                + ∑ k ∈ Finset.range block_size, a (i * N + k) * b (k * N + j))
      ∧ mulMatrix_256VL_BL (fun _ => 0) (fun _ => 1) (fun _ => 1) 1 (0 * N + 1) = 1 := by
  have h1 : ∀ (x y z : Buf) (n i j : ℕ), i < n → j < 8 →
      mulMatrix_256VL_BL x y z n (i * N + j)
        = x (i * N + j) + ∑ k ∈ Finset.range n, y (i * N + k) * z (k * N + j) := by
    intro x y z n i j hi hj
    rw [mulMatrix_256VL_BL_apply]
    refine congrArg (fun t => x (i * N + j) + t) ?_
    rw [Finset.sum_eq_single i]
    · rw [Finset.sum_eq_single j]
      · rw [if_pos rfl]
      · intro j' hj' hne
        rw [if_neg]
        have := Finset.mem_range.mp hj'
        simp only [N]
        omega
      · intro h
        exact absurd (Finset.mem_range.mpr hj) h
    · intro i' _ hne
      refine Finset.sum_eq_zero (fun j' hj' => ?_)
      rw [if_neg]
      have := Finset.mem_range.mp hj'
      simp only [N]
      omega
    · intro h
      exact absurd (Finset.mem_range.mpr hi) h
  have h2 : ∀ p, (∀ i j, i < block_size → j < 8 → p ≠ i * N + j) →
      mulMatrix_256VL_BL m_res a b block_size p = m_res p := by
    intro p hp
    rw [mulMatrix_256VL_BL_apply]
    refine add_right_eq_self.mpr (Finset.sum_eq_zero (fun i hi => Finset.sum_eq_zero
      (fun j hj => ?_)))
    exact if_neg (hp i j (Finset.mem_range.mp hi) (Finset.mem_range.mp hj))
  refine ⟨h1 m_res a b block_size, h2, ?_, ?_, ?_⟩
  · intro i j hj8 hjN
    refine h2 _ (fun i' j' _ hj' => ?_)
    simp only [N] at hjN ⊢
    omega
  · intro _ i j hi hlo hhi
    refine ⟨fun i' j' _ hj' => ?_, h1 m_res a b block_size i j hi hhi⟩
    simp only [N]
    omega
  · rw [h1 _ _ _ 1 0 1 (by decide) (by decide)]
    norm_num

/-! ## The parameterised scalar kernel -/

/-- Closed form of `Kernels::kernelMulMatrix_BL_NV` for all sizes: each cell receives the
products of all `(i, k, j)` whose target offset `i * j_size + j` is that cell. -/
theorem Kernels_kernelMulMatrix_BL_NV_apply (block_size j_size k_size : ℕ)
    (m_res m_mul1 m_mul2 : Buf) (p : ℕ) :
    Kernels.kernelMulMatrix_BL_NV block_size j_size k_size m_res m_mul1 m_mul2 p
      = m_res p + ∑ i ∈ Finset.range block_size, ∑ k ∈ Finset.range block_size,
          ∑ j ∈ Finset.range block_size,
            if p = i * j_size + j then
              m_mul1 (i * k_size + k) * m_mul2 (k * j_size + j)
            else 0 := by
  unfold Kernels.kernelMulMatrix_BL_NV
  simp only []
  rw [forLoop_ptr2_state]
  simp only [forLoop_ptr_state, store_add_apply, forLoop_add_fun, Nat.zero_add, Nat.sub_zero]

/-- A flat offset `i * c + j` with `j < c` determines the row `i` and the column `j`. -/
theorem row_col_unique (c i j i' j' : ℕ) (hj : j < c) (hj' : j' < c)
    (h : i * c + j = i' * c + j') : i = i' ∧ j = j' := by
  have hc : 0 < c := by omega
  have e1 : (i * c + j) / c = i := by
    rw [Nat.add_comm, Nat.add_mul_div_right _ _ hc, Nat.div_eq_of_lt hj, Nat.zero_add]
  have e2 : (i' * c + j') / c = i' := by
    rw [Nat.add_comm, Nat.add_mul_div_right _ _ hc, Nat.div_eq_of_lt hj', Nat.zero_add]
  have hi : i = i' := by rw [← e1, ← e2, h]
  subst hi
  exact ⟨rfl, by omega⟩

/-- C14: let `A` be row-major with row length `k_size`, `B` and `C` row-major with row length
`j_size`, and let the tile with origin `(i0, j0, k0)` have its columns inside a row of `C`
(`j0 + block_size ≤ j_size`).  After `Kernels::kernelMulMatrix_BL_NV(c, a, b)` with
`c = C + i0*j_size + j0`, `a = A + i0*k_size + k0`, `b = B + k0*j_size + j0`, every
`i, j < block_size` has
`C[i0+i, j0+j] = old C[i0+i, j0+j] + Σ_{k < block_size} A[i0+i, k0+k] * B[k0+k, j0+j]`,
and no other cell of `C` changes. -/
theorem Kernels_kernelMulMatrix_BL_NV_tile (C A B : Buf)
    (block_size j_size k_size i0 j0 k0 : ℕ) (hfit : j0 + block_size ≤ j_size) :
    (∀ i j, i < block_size → j < block_size →
        writeBack C (i0 * j_size + j0)
            (Kernels.kernelMulMatrix_BL_NV block_size j_size k_size
              (atOffset C (i0 * j_size + j0)) (atOffset A (i0 * k_size + k0))
              (atOffset B (k0 * j_size + j0)))
            ((i0 + i) * j_size + (j0 + j))
          = C ((i0 + i) * j_size + (j0 + j))
            + ∑ k ∈ Finset.range block_size,
                A ((i0 + i) * k_size + (k0 + k)) * B ((k0 + k) * j_size + (j0 + j)))
      ∧ (∀ p, (∀ i j, i < block_size → j < block_size → p ≠ (i0 + i) * j_size + (j0 + j)) →
          writeBack C (i0 * j_size + j0)
              (Kernels.kernelMulMatrix_BL_NV block_size j_size k_size
                (atOffset C (i0 * j_size + j0)) (atOffset A (i0 * k_size + k0))
                (atOffset B (k0 * j_size + j0)))
              p
            = C p) := by
  constructor
  · intro i j hi hj
    have hsplit : (i0 + i) * j_size + (j0 + j) = (i0 * j_size + j0) + (i * j_size + j) := by
      ring
    have hle : i0 * j_size + j0 ≤ (i0 + i) * j_size + (j0 + j) := by omega
    have hsub : (i0 + i) * j_size + (j0 + j) - (i0 * j_size + j0) = i * j_size + j := by omega
    unfold writeBack
    rw [if_pos hle, hsub, Kernels_kernelMulMatrix_BL_NV_apply]
    have hC : atOffset C (i0 * j_size + j0) (i * j_size + j)
        = C ((i0 + i) * j_size + (j0 + j)) := by
      unfold atOffset
      rw [hsplit]
    rw [hC]
    refine congrArg (fun t => C ((i0 + i) * j_size + (j0 + j)) + t) ?_
    rw [Finset.sum_eq_single i]
    · refine Finset.sum_congr rfl (fun k _ => ?_)
      rw [Finset.sum_eq_single j]
      · rw [if_pos rfl]
        unfold atOffset
        have e1 : i0 * k_size + k0 + (i * k_size + k) = (i0 + i) * k_size + (k0 + k) := by ring
        have e2 : k0 * j_size + j0 + (k * j_size + j) = (k0 + k) * j_size + (j0 + j) := by ring
        rw [e1, e2]
      · intro j' hj' hne
        rw [if_neg]
        intro h
        exact hne (row_col_unique j_size i j i j' (by omega)
          (by have := Finset.mem_range.mp hj'; omega) h).2.symm
      · intro h
        exact absurd (Finset.mem_range.mpr hj) h
    · intro i' _ hne
      refine Finset.sum_eq_zero (fun k _ => Finset.sum_eq_zero (fun j' hj' => ?_))
      rw [if_neg]
      intro h
      exact hne (row_col_unique j_size i j i' j' (by omega)
        (by have := Finset.mem_range.mp hj'; omega) h).1.symm
    · intro h
      exact absurd (Finset.mem_range.mpr hi) h
  · intro p hp
    unfold writeBack
    by_cases hle : i0 * j_size + j0 ≤ p
    · rw [if_pos hle, Kernels_kernelMulMatrix_BL_NV_apply]
      have hC : atOffset C (i0 * j_size + j0) (p - (i0 * j_size + j0)) = C p := by
        unfold atOffset
        congr 1
        omega
      rw [hC]
      refine add_right_eq_self.mpr (Finset.sum_eq_zero (fun i hi => Finset.sum_eq_zero
        (fun k _ => Finset.sum_eq_zero (fun j hj => ?_))))
      rw [if_neg]
      intro h
      refine hp i j (Finset.mem_range.mp hi) (Finset.mem_range.mp hj) ?_
      have hsplit : (i0 + i) * j_size + (j0 + j) = (i0 * j_size + j0) + (i * j_size + j) := by
        ring
      omega
    · rw [if_neg hle]

/-- C14 witness: a 4x6 result `C` (`j_size = 6`), a 4x5 operand `A` (`k_size = 5`), block size 2
and the tile with origin `(i0, j0, k0) = (2, 4, 2)`; the cell `C[3, 5]`. -/
theorem Kernels_kernelMulMatrix_BL_NV_tile_witness :
    writeBack (fun _ => 1) (2 * 6 + 4)
        (Kernels.kernelMulMatrix_BL_NV 2 6 5 (atOffset (fun _ => 1) (2 * 6 + 4))
          (atOffset (fun _ => 2) (2 * 5 + 2)) (atOffset (fun _ => 4) (2 * 6 + 4)))
        ((2 + 1) * 6 + (4 + 1))
      = 17 := by
  have h := (Kernels_kernelMulMatrix_BL_NV_tile (fun _ => 1) (fun _ => 2) (fun _ => 4)
    2 6 5 2 4 2 (by decide)).1 1 1 (by decide) (by decide)
  rw [h]
  norm_num [Finset.sum_range_succ]

/-! ## Bounds of the accesses of the scalar kernel -/

/-- A property of the loop state that the body preserves holds after the loop. -/
theorem forLoop_inv {σ : Type} (P : σ → Prop) (body : ℕ → σ → σ) (n : ℕ) :
    ∀ (i0 : ℕ) (s : σ), P s →
      (∀ i s, i0 ≤ i → i < i0 + n → P s → P (body i s)) → P (forLoop body n i0 s) := by
  induction n with
  | zero => intro i0 s hP _; exact hP
  | succ n ih =>
    intro i0 s hP h
    simp only [forLoop]
    exact ih (i0 + 1) (body i0 s) (h i0 s (le_refl _) (by omega) hP)
      (fun i s hi1 hi2 hs => h i s (by omega) (by omega) hs)

/-- The first component of a loop over pairs, when the body acts on it independently of the
second component. -/
theorem forLoop_fst {α β : Type} (body : ℕ → α × β → α × β) (body' : ℕ → α → α)
    (h : ∀ i s, (body i s).1 = body' i s.1) (n : ℕ) :
    ∀ (i0 : ℕ) (s : α × β), (forLoop body n i0 s).1 = forLoop body' n i0 s.1 := by
  induction n with
  | zero => intro i0 s; rfl
  | succ n ih =>
    intro i0 s
    simp only [forLoop]
    rw [ih (i0 + 1) (body i0 s), h i0 s]

/-- A tile origin that is a multiple of the block size and lies below `n`, itself a multiple
of the block size, leaves room for a whole block. -/
theorem origin_add_block_le (block_size n x : ℕ) (hn : block_size ∣ n) (hx : block_size ∣ x)
    (hlt : x < n) : x + block_size ≤ n := by
  obtain ⟨u, rfl⟩ := hn
  obtain ⟨w, rfl⟩ := hx
  have hb : 0 < block_size := by
    rcases Nat.eq_zero_or_pos block_size with h0 | h0
    · subst h0; simp at hlt
    · exact h0
  have hwu : w < u := Nat.lt_of_mul_lt_mul_left hlt
  calc block_size * w + block_size = block_size * (w + 1) := by ring
    _ ≤ block_size * u := Nat.mul_le_mul_left _ hwu

/-- The instrumented kernel computes the result buffer of `kernelMulMatrix_BL_NV`. -/
theorem kernelMulMatrix_BL_NV_logged_fst (m_res m_mul1 m_mul2 : Buf) (block_size : ℕ) :
    (kernelMulMatrix_BL_NV_logged m_res m_mul1 m_mul2 block_size).1
      = kernelMulMatrix_BL_NV m_res m_mul1 m_mul2 block_size := by
  unfold kernelMulMatrix_BL_NV_logged kernelMulMatrix_BL_NV
  simp only []
  rw [forLoop_ptr2_state, forLoop_ptr2_state]
  simp only [forLoop_ptr_state]
  refine forLoop_fst _ _ (fun i s => ?_) block_size 0 (m_res, [])
  refine forLoop_fst _ _ (fun k s => ?_) block_size 0 s
  exact forLoop_fst _ _ (fun j s => rfl) block_size 0 s

/-- Every access of the scalar kernel has an offset `i * N + j` (result, second operand) or
`i * N + k` (first operand) with `i, j, k < block_size`. -/
theorem kernelMulMatrix_BL_NV_logged_offsets (m_res m_mul1 m_mul2 : Buf) (block_size : ℕ)
    (Q : Access → Prop)
    (hQ : ∀ i k j, i < block_size → k < block_size → j < block_size →
      Q (Access.readMul1 (i * N + k)) ∧ Q (Access.readMul2 (k * N + j))
        ∧ Q (Access.readRes (i * N + j)) ∧ Q (Access.writeRes (i * N + j))) :
    ∀ acc ∈ (kernelMulMatrix_BL_NV_logged m_res m_mul1 m_mul2 block_size).2, Q acc := by
  unfold kernelMulMatrix_BL_NV_logged
  simp only []
  rw [forLoop_ptr2_state]
  simp only [forLoop_ptr_state, Nat.zero_add, Nat.sub_zero]
  refine forLoop_inv (fun s : Buf × List Access => ∀ acc ∈ s.2, Q acc) _ block_size 0
    (m_res, []) (fun acc h => absurd h (List.not_mem_nil acc)) ?_
  intro i s _ hi hs
  refine forLoop_inv (fun s : Buf × List Access => ∀ acc ∈ s.2, Q acc) _ block_size 0 s hs ?_
  intro k s _ hk hs
  refine forLoop_inv (fun s : Buf × List Access => ∀ acc ∈ s.2, Q acc) _ block_size 0 s hs ?_
  intro j s _ hj hs acc hacc
  obtain ⟨q1, q2, q3, q4⟩ := hQ i k j (by omega) (by omega) (by omega)
  simp only [List.mem_append, List.mem_cons, List.mem_singleton, List.not_mem_nil,
    or_false] at hacc
  rcases hacc with h | h | h | h | h
  · exact hs acc h
  · rw [h]; exact q1
  · rw [h]; exact q2
  · rw [h]; exact q3
  · rw [h]; exact q4

/-- C15: for every block size that divides `N = 256` and every tile origin `(i0, j0, k0)` whose
coordinates are multiples of the block size and less than `N`, every index that
`kernelMulMatrix_BL_NV` reads or writes through `res = C + i0*N + j0`, `a = A + i0*N + k0`,
`b = B + k0*N + j0` lies in `[0, N*N)` of the `N x N` buffer it goes to.  The accesses are those
logged by `kernelMulMatrix_BL_NV_logged`, which computes the same result buffer. -/
theorem kernelMulMatrix_BL_NV_in_bounds (C A B : Buf) (block_size i0 j0 k0 : ℕ)
    (hN : block_size ∣ N) (hi0 : block_size ∣ i0) (hj0 : block_size ∣ j0)
    (hk0 : block_size ∣ k0) (hi : i0 < N) (hj : j0 < N) (hk : k0 < N) :
    (kernelMulMatrix_BL_NV_logged (atOffset C (i0 * N + j0)) (atOffset A (i0 * N + k0))
        (atOffset B (k0 * N + j0)) block_size).1
      = kernelMulMatrix_BL_NV (atOffset C (i0 * N + j0)) (atOffset A (i0 * N + k0))
          (atOffset B (k0 * N + j0)) block_size
    ∧ ∀ acc ∈ (kernelMulMatrix_BL_NV_logged (atOffset C (i0 * N + j0))
        (atOffset A (i0 * N + k0)) (atOffset B (k0 * N + j0)) block_size).2,
      Access.inBounds (i0 * N + j0) (i0 * N + k0) (k0 * N + j0) acc := by
  refine ⟨kernelMulMatrix_BL_NV_logged_fst _ _ _ _, ?_⟩
  have bi := origin_add_block_le block_size N i0 hN hi0 hi
  have bj := origin_add_block_le block_size N j0 hN hj0 hj
  have bk := origin_add_block_le block_size N k0 hN hk0 hk
  refine kernelMulMatrix_BL_NV_logged_offsets _ _ _ block_size _ ?_
  intro i k j hi' hk' hj'
  simp only [Access.inBounds, N] at bi bj bk ⊢
  refine ⟨?_, ?_, ?_, ?_⟩ <;> omega

/-- C15 witness: block size 128 and the last tile origin `(128, 128, 128)`; with block size 1 at
the origin `(0, 0, 0)` the logged accesses are the four of the single statement executed. -/
theorem kernelMulMatrix_BL_NV_in_bounds_witness :
    (∀ acc ∈ (kernelMulMatrix_BL_NV_logged (atOffset (fun _ => 0) (128 * N + 128))
        (atOffset (fun _ => 2) (128 * N + 128)) (atOffset (fun _ => 4) (128 * N + 128)) 128).2,
      Access.inBounds (128 * N + 128) (128 * N + 128) (128 * N + 128) acc)
    ∧ (kernelMulMatrix_BL_NV_logged (fun _ => 0) (fun _ => 2) (fun _ => 4) 1).2
      = [Access.readMul1 0, Access.readMul2 0, Access.readRes 0, Access.writeRes 0] :=
  ⟨(kernelMulMatrix_BL_NV_in_bounds (fun _ => 0) (fun _ => 2) (fun _ => 4) 128 128 128 128
      (by decide) (by decide) (by decide) (by decide) (by decide) (by decide) (by decide)).2,
    rfl⟩

end MatrixMultiplication
